import Mathlib

/-!
Verification of the NSGA-II train-ranking engine of KochiKonnect.

This file gives a shallow embedding, in Lean 4, of the ranking pipeline
implemented in `backend_nsga_service.py` (objective mapping, per-column
normalisation and weighting, feasibility-split fast non-dominated sort,
crowding distance, final stable ordering, induction-category assignment,
and the `/rank` endpoint's batch computation) and of the CSV ingestion of
`nsga_train_ranking.py`, and proves or refutes the specified properties.

Python floats are modelled by `ℚ` (all arithmetic used by the pipeline is
exact on the rationals; `math.inf` crowding values are modelled by
`WithTop ℚ`).  Python text values are modelled by `String` and the
relevant `str` methods (`strip`, `lower`, substring `in`) are re-implemented
on `List Char`.  "Absent" JSON/dict fields are modelled by `Option`; a
JSON scalar is a `JVal`.  Python exceptions that abort the batch are
modelled by `Except String`.
-/

namespace KMRL

/-- Decidable equality for `Except`, used to state concrete evaluations. -/
instance instDecEqExcept {ε α : Type} [DecidableEq ε] [DecidableEq α] :
    DecidableEq (Except ε α) := fun a b =>
  match a, b with
  | .ok x, .ok y =>
    if h : x = y then .isTrue (by rw [h]) else .isFalse (by intro hc; cases hc; exact h rfl)
  | .error x, .error y =>
    if h : x = y then .isTrue (by rw [h]) else .isFalse (by intro hc; cases hc; exact h rfl)
  | .ok _, .error _ => .isFalse (by intro hc; cases hc)
  | .error _, .ok _ => .isFalse (by intro hc; cases hc)

/-! ## Python text primitives (`str.lower`, `str.strip`, substring `in`) -/

/-- Lower-casing of a character list, modelling `str.lower()` (ASCII suffices
for every string the service compares). -/
def lowerL (s : List Char) : List Char := s.map Char.toLower

/-- Whitespace stripping at both ends, modelling `str.strip()`. -/
def stripL (s : List Char) : List Char :=
  (((s.dropWhile Char.isWhitespace).reverse).dropWhile Char.isWhitespace).reverse

/-- Substring test on character lists: `pyInSub nd hay` models Python
`nd in hay` for strings. -/
def pyInSub (nd : List Char) : List Char → Bool
  | [] => nd.isEmpty
  | c :: t => nd.isPrefixOf (c :: t) || pyInSub nd t

/-- Python `needle in hay` on strings. -/
def pyIn (needle hay : String) : Bool := pyInSub needle.data hay.data

/-- Model of `_norm_text` from `backend_nsga_service.py`:
`str(s or '').strip().lower()` (the `or ''` is captured by representing an
absent field as `""`). -/
def normText (s : String) : String := ⟨lowerL (stripL s.data)⟩

/-! ## JSON scalars and Python numeric coercion -/

/-- A JSON scalar value, as delivered to the Flask endpoint for a numeric
field such as `mileage`. -/
inductive JVal where
  | jnull : JVal
  | jnum : ℚ → JVal
  | jstr : String → JVal
  | jbool : Bool → JVal
deriving DecidableEq

/-- Python truthiness of a JSON scalar (`None`, `0`, `""`, `False` are falsy),
used by the `or 0.0` defaulting idiom. -/
def pyTruthy : JVal → Bool
  | .jnull => false
  | .jnum q => !(q = 0)
  | .jstr s => !(s = "")
  | .jbool b => b

/-- Digit test for decimal parsing. -/
def isDigitChar (c : Char) : Bool := decide ('0' ≤ c) && decide (c ≤ '9')

/-- Value of a big-endian digit list. -/
def natOfDigits (l : List Char) : ℕ :=
  l.foldl (fun a c => a * 10 + (c.toNat - '0'.toNat)) 0

/-- Model of Python `float(s)` for a string argument on plain decimal
literals (optional sign, integer part, optional fractional part); any other
string raises `ValueError`, which we model by `none`.  The service's inputs
never use exponent/inf/nan forms, so this captures `float` faithfully on
the domain that matters. -/
def parsePyFloat (s : String) : Option ℚ :=
  let t := stripL s.data
  let core : List Char := match t with
    | '+' :: r => r
    | '-' :: r => r
    | r => r
  let sign : ℚ := match t with
    | '-' :: _ => -1
    | _ => 1
  let ip := core.takeWhile isDigitChar
  let rest := core.dropWhile isDigitChar
  match rest with
  | [] => if ip.isEmpty then none else some (sign * (natOfDigits ip : ℚ))
  | '.' :: fr =>
    let fp := fr.takeWhile isDigitChar
    let rest2 := fr.dropWhile isDigitChar
    if rest2.isEmpty && !(ip.isEmpty && fp.isEmpty) then
      some (sign * ((natOfDigits ip : ℚ) + (natOfDigits fp : ℚ) / (10 ^ fp.length : ℚ)))
    else none
  | _ => none

/-- Model of Python `int(s)` on integer literals (optional sign, digits);
anything else raises `ValueError`, modelled by `none`. -/
def parsePyInt (s : String) : Option ℤ :=
  let t := stripL s.data
  let core : List Char := match t with
    | '+' :: r => r
    | '-' :: r => r
    | r => r
  let sign : ℤ := match t with
    | '-' :: _ => -1
    | _ => 1
  if !core.isEmpty && core.all isDigitChar then
    some (sign * (natOfDigits core : ℤ))
  else none

/-- Model of Python `float(v)` on a JSON scalar.  Strings go through
`parsePyFloat`; `None` raises a `TypeError` (also modelled as an error). -/
def pyFloat : JVal → Except String ℚ
  | .jnum q => .ok q
  | .jbool b => .ok (if b then 1 else 0)
  | .jnull => .error "float() argument must be a string or a real number"
  | .jstr s =>
    match parsePyFloat s with
    | some q => .ok q
    | none => .error ("could not convert string to float: " ++ s)

/-! ## Candidate rows and the objective mapper -/

/-- A raw candidate row of the `/rank` request.  Absent text fields are
modelled by `""` (exactly what `_norm_text(row.get(k))` produces for them);
the numeric `mileage` field keeps its JSON scalar, with `none` for an
absent key; `train_id` and `updated_at` are passed through unchanged. -/
structure Row where
  train_id : Option String := none
  fitness : String := ""
  job_cards : String := ""
  branding : String := ""
  mileage : Option JVal := none
  cleaning : String := ""
  stabling : String := ""
  updated_at : Option String := none
deriving DecidableEq, Inhabited

/-- Model of `float(row.get("mileage") or 0.0)` (lines 156 and 551 of the
service): an absent or falsy value defaults to `0.0`; a truthy value goes
through `float`, which can raise. -/
def mileageVal (row : Row) : Except String ℚ :=
  match row.mileage with
  | none => .ok 0
  | some v => if pyTruthy v then pyFloat v else .ok 0

/-- The canonical display statuses produced by `_normalize_statuses`. -/
structure NormStatus where
  fitness : String
  job_cards : String
  branding : String
  cleaning : String
  stabling : String
deriving DecidableEq, Inhabited

/-- Model of `_normalize_statuses` (lines 92-133).  Note that the `"valid"`
substring test is performed before the expired/invalid/revoked test, exactly
as in the source. -/
def normalizeStatuses (row : Row) : NormStatus :=
  let f := normText row.fitness
  let fitness :=
    if pyIn "valid" f then "Valid"
    else if pyIn "expired" f || pyIn "invalid" f || pyIn "revoked" f then "Expired"
    else "Conditional"
  let j := normText row.job_cards
  let jobs :=
    if pyIn "critical" j || pyIn "major" j || pyIn "open" j then "Open"
    else if pyIn "minor" j || pyIn "pending" j then "Minor"
    else "Closed"
  let b := normText row.branding
  let branding :=
    if b = "high" then "High"
    else if b = "medium" then "Medium"
    else "Low"
  let c := normText row.cleaning
  let cleaning :=
    if pyIn "complete" c || pyIn "clean" c then "Complete"
    else if pyIn "partial" c || pyIn "inprogress" c then "Partial"
    else "Pending"
  -- `row.get("stabling") or ""` passes the raw bay label through unchanged
  { fitness := fitness, job_cards := jobs, branding := branding,
    cleaning := cleaning, stabling := row.stabling }

/-- An objective vectors is a list of rationals (always of length 6 in the
pipeline). -/
abbrev Vec := List ℚ

/-- The output of `map_row_to_objectives`: the 6-dimensional minimisation
vector, the constraint penalty, the display record, and the alert flags.
The prose-only `extras`/`alerts` entries that the claims do not touch keep
their source values. -/
structure MappedRow where
  objectives : Vec
  penalty : ℚ
  fitness_invalid : Bool
  job_open : Bool
  cleaning_pending : Bool
  cleaning_partial : Bool
  no_stabling : Bool
  fitness_status : String
  job_card_status : String
  branding_priority : String
  mileage : ℚ
  cleaning_status : String
  stabling_position : String
  updated_at : Option String
deriving DecidableEq, Inhabited

/-- Model of `map_row_to_objectives` (lines 136-188).  The only fallible
step is `float(row.get("mileage") or 0.0)`. -/
def mapRowToObjectives (row : Row) (fleet_avg : ℚ) : Except String MappedRow := do
  let norm := normalizeStatuses row
  let ftxt := normText norm.fitness
  let fitness_invalid : ℚ :=
    if pyIn "invalid" ftxt || pyIn "expired" ftxt || pyIn "revoked" ftxt then 1 else 0
  let jtxt := normText norm.job_cards
  let jobs : ℚ :=
    if pyIn "critical" jtxt || pyIn "major" jtxt || pyIn "open" jtxt then 1
    else if pyIn "minor" jtxt || pyIn "pending" jtxt then 1/2
    else 0
  let btxt := normText norm.branding
  let branding : ℚ := if btxt = "high" then 1 else if btxt = "medium" then 1/2 else 0
  let mileage ← mileageVal row
  let mileage_dev : ℚ := |mileage - fleet_avg|
  let ctxt := normText norm.cleaning
  let cleaning_need : ℚ :=
    if pyIn "complete" ctxt || pyIn "clean" ctxt then 0
    else if pyIn "partial" ctxt then 1/2 else 1
  let stab := ⟨stripL norm.stabling.data⟩
  let geometry : ℚ := if stab = ("" : String) then 1/2 else 0
  let penalty : ℚ := if 0 < fitness_invalid then 10 else 0
  .ok {
    objectives := [fitness_invalid, jobs, branding, mileage_dev, cleaning_need, geometry]
    penalty := penalty
    fitness_invalid := !(fitness_invalid = 0)
    -- `jtxt in ("open") or any(k in jtxt for k in ["major", "critical"])`:
    -- note the first test is Python substring-of-"open", kept verbatim
    job_open := pyIn jtxt "open" || pyIn "major" jtxt || pyIn "critical" jtxt
    cleaning_pending := pyIn "pending" ctxt
    cleaning_partial := pyIn "partial" ctxt
    no_stabling := stab = ("" : String)
    fitness_status := norm.fitness
    job_card_status := norm.job_cards
    branding_priority := norm.branding
    mileage := mileage
    cleaning_status := norm.cleaning
    stabling_position := norm.stabling
    updated_at := row.updated_at }

/-! ## Column normalisation and weighting -/

/-- Model of `_norm` (lines 79-85): min-max rescaling of one column, with a
degenerate column collapsing to all zeros. -/
def normCol (vals : List ℚ) : List ℚ :=
  match vals with
  | [] => []
  | v :: vs =>
    let vmin := vs.foldl min v
    let vmax := vs.foldl max v
    if vmax - vmin = 0 then vals.map (fun _ => 0)
    else vals.map (fun x => (x - vmin) / (vmax - vmin))

/-- The optional weight configuration of the request payload; `none` models
an unspecified key, defaulted by `apply_weights`. -/
structure Weights where
  fitness : Option ℚ := none
  jobs : Option ℚ := none
  branding : Option ℚ := none
  mileage : Option ℚ := none
  cleaning : Option ℚ := none
  stabling : Option ℚ := none
deriving DecidableEq, Inhabited

/-- The six effective weights with their documented defaults
(`weights.get(k, default)`). -/
def Weights.list (w : Weights) : List ℚ :=
  [w.fitness.getD 5, w.jobs.getD 2, w.branding.getD (3/2), w.mileage.getD 1,
   w.cleaning.getD (5/4), w.stabling.getD (3/4)]

/-- Model of `apply_weights` (lines 191-212): normalise each of the 6
columns across the population, then scale by the per-dimension weight.
(The pipeline always passes 6-dimensional rows, so `zip(*objs)` yields
exactly the 6 columns read off here.) -/
def applyWeights (objs : List Vec) (w : Weights) : List Vec :=
  let colsNorm := (List.range 6).map (fun k => normCol (objs.map (fun r => r.getD k 0)))
  (List.range objs.length).map (fun i =>
    (colsNorm.zip w.list).map (fun p => p.1.getD i 0 * p.2))

/-! ## Dominance and the fast non-dominated sort -/

/-- Model of `_dominates` (lines 217-220): not worse on every coordinate and
strictly better on at least one. -/
def dominates (a b : Vec) : Bool :=
  ((a.zip b).all fun p => decide (p.1 ≤ p.2)) && ((a.zip b).any fun p => decide (p.1 < p.2))

/-- The population value at an index (`pop[i]`). -/
def vecAt (pop : List Vec) (i : ℕ) : Vec := pop.getD i []

/-- The set `S[p]` of indices dominated by `p`, in ascending order,
as accumulated by the double loop of `_non_dominated_sort`. -/
def domSet (pop : List Vec) (p : ℕ) : List ℕ :=
  (List.range pop.length).filter (fun q => decide (p ≠ q) && dominates (vecAt pop p) (vecAt pop q))

/-- The list of indices dominating `q` (the quantity counted by `n_dom[q]`). -/
def domList (pop : List Vec) (q : ℕ) : List ℕ :=
  (List.range pop.length).filter (fun p => decide (p ≠ q) && dominates (vecAt pop p) (vecAt pop q))

/-- Initial domination counts `n_dom` (Python `int`s, hence `ℤ`). -/
def initCount (pop : List Vec) : ℕ → ℤ := fun q => ((domList pop q).length : ℤ)

/-- One decrement `n_dom[q] -= 1` followed by the `n_dom[q] == 0` collection
test from the peeling loop. -/
def decStep (st : (ℕ → ℤ) × List ℕ) (q : ℕ) : (ℕ → ℤ) × List ℕ :=
  let c : ℕ → ℤ := fun j => if j = q then st.1 q - 1 else st.1 j
  if c q = 0 then (c, st.2 ++ [q]) else (c, st.2)

/-- One round of the peeling loop: for each `p` of the current front, in
order, decrement every `q in S[p]` and collect the indices whose count
reaches zero, in discovery order. -/
def stepFront (pop : List Vec) (c : ℕ → ℤ) (F : List ℕ) : (ℕ → ℤ) × List ℕ :=
  F.foldl (fun st p => (domSet pop p).foldl decStep st) (c, [])

/-- The peeling loop of `_non_dominated_sort`, with explicit fuel (the
source loop terminates because every round is nonempty and consumes fresh
indices; `pop.length + 1` rounds therefore always suffice, which the
coverage theorem below makes precise). -/
def ndsLoop (pop : List Vec) : ℕ → (ℕ → ℤ) → List ℕ → List (List ℕ)
  | 0, _, _ => []
  | fuel + 1, c, F =>
    match F with
    | [] => []
    | _ =>
      let st := stepFront pop c F
      F :: ndsLoop pop fuel st.1 st.2

/-- Model of `_non_dominated_sort` (lines 223-249): fronts in construction
order; the first front is ascending, later fronts are in discovery order. -/
def nonDominatedSort (pop : List Vec) : List (List ℕ) :=
  ndsLoop pop (pop.length + 1) (initCount pop)
    ((List.range pop.length).filter (fun i => initCount pop i = 0))

/-! ## Stable sorting (Python `sorted` / `list.sort`) -/

/-- Stable insertion of `x` into a sorted list: `x` is placed before the
first element strictly greater than it, hence after all equal keys. -/
def sinsert (le : α → α → Bool) (x : α) : List α → List α
  | [] => [x]
  | y :: ys => if le x y && !(le y x) then x :: y :: ys else y :: sinsert le x ys

/-- Stable insertion sort, processing elements left to right; it models
Python's stable `sorted`/`list.sort` for a total preorder `le`. -/
def ssort (le : α → α → Bool) (l : List α) : List α :=
  l.foldl (fun acc x => sinsert le x acc) []

/-! ## Crowding distance -/

/-- Value of objective `k` of population member `i` (`pop[i][k]`). -/
def objVal (pop : List Vec) (i k : ℕ) : ℚ := (vecAt pop i).getD k 0

/-- Comparison used by `sorted(front, key=lambda i: pop[i][k])`. -/
def keyLe (pop : List Vec) (k : ℕ) (i j : ℕ) : Bool :=
  decide (objVal pop i k ≤ objVal pop j k)

/-- Processing of one objective dimension `k` by `_crowding_distance`
(lines 257-269): sort the front by that dimension (stable, `pop[i][k]`
keys), overwrite the two boundary slots of the sorted order with `inf`
(`sorted_idx[0]` first, `sorted_idx[-1]` second — last write wins, which
the nested conditional below reproduces), and, unless the span is zero,
add the normalised neighbour gap to every interior member in order.  The
interior triples `(s[j-1], s[j], s[j+1])` are read off by zipping the
sorted list with its two tails. -/
def crowdStepDim (pop : List Vec) (front : List ℕ) (d : ℕ → WithTop ℚ) (k : ℕ) :
    ℕ → WithTop ℚ :=
  if ssort (keyLe pop k) front = [] then d
  else if objVal pop ((ssort (keyLe pop k) front).getLastD 0) k
      - objVal pop ((ssort (keyLe pop k) front).headD 0) k = 0 then
    fun j => if j = (ssort (keyLe pop k) front).getLastD 0 then ⊤
      else if j = (ssort (keyLe pop k) front).headD 0 then ⊤ else d j
  else
    (((ssort (keyLe pop k) front).zip ((ssort (keyLe pop k) front).drop 1)).zip
        ((ssort (keyLe pop k) front).drop 2)).foldl
      (fun dd t => fun j => if j = t.1.2
        then dd t.1.2 + (((objVal pop t.2 k - objVal pop t.1.1 k)
          / (objVal pop ((ssort (keyLe pop k) front).getLastD 0) k
            - objVal pop ((ssort (keyLe pop k) front).headD 0) k) : ℚ) : WithTop ℚ)
        else dd j)
      (fun j => if j = (ssort (keyLe pop k) front).getLastD 0 then ⊤
        else if j = (ssort (keyLe pop k) front).headD 0 then ⊤ else d j)

/-- Model of `_crowding_distance` (lines 252-270) as a total map from index
to distance: members start at `0.0` and `d.get(i, 0.0)` also defaults to
`0`, so the Python dict is faithfully a total function.  `m` is
`len(pop[0])`. -/
def crowdingDistance (front : List ℕ) (pop : List Vec) : ℕ → WithTop ℚ :=
  (List.range (vecAt pop 0).length).foldl (crowdStepDim pop front) (fun _ => (0 : WithTop ℚ))

/-! ## nsga_order: feasibility split, ranks, final stable order -/

/-- One entry of the order produced by `nsga_order`.  The source stores
`(i, -d.get(i, 0.0), rank)`; we keep the crowding distance un-negated and
compare it descendingly in `entryLE`, which is the same lexicographic
order. -/
structure OrderEntry where
  idx : ℕ
  crowd : WithTop ℚ
  rank : ℕ
deriving DecidableEq, Inhabited

/-- The sort key `(rank asc, crowding desc)` of `order.sort(key=lambda t:
(t[2], t[1]))`. -/
def entryLE (a b : OrderEntry) : Bool :=
  decide (a.rank < b.rank) || (decide (a.rank = b.rank) && decide (b.crowd ≤ a.crowd))

/-- The feasible indices `[i for i,p in enumerate(constraint_penalties) if p <= 0]`. -/
def feasIdx (pens : List ℚ) : List ℕ :=
  (List.range pens.length).filter (fun i => decide (pens.getD i 0 ≤ 0))

/-- The infeasible indices `[i for i,p in enumerate(constraint_penalties) if p > 0]`. -/
def infeasIdx (pens : List ℚ) : List ℕ :=
  (List.range pens.length).filter (fun i => decide (0 < pens.getD i 0))

/-- The fronts of `nsga_order` (fallback branch, lines 295-305): the
population is split into feasible (`penalty ≤ 0`) and infeasible
(`penalty > 0`) subsets, the fast non-dominated sort runs on each subset,
and the feasible fronts precede the infeasible fronts, each front mapped
back to original indices. -/
def nsgaFronts (objs : List Vec) (pens : List ℚ) : List (List ℕ) :=
  let feasFronts := (nonDominatedSort ((feasIdx pens).map (fun i => vecAt objs i))).map
    (fun f => f.map (fun j => (feasIdx pens).getD j 0))
  let infFronts := (nonDominatedSort ((infeasIdx pens).map (fun i => vecAt objs i))).map
    (fun f => f.map (fun j => (infeasIdx pens).getD j 0))
  feasFronts ++ infFronts

/-- The `order` list before sorting (lines 306-315): fronts in order, rank
numbers from 1, each member paired with its crowding distance within its
front (computed against the full weighted population). -/
def buildOrder (pop : List Vec) : ℕ → List (List ℕ) → List OrderEntry
  | _, [] => []
  | rk, f :: rest =>
    f.map (fun i => ⟨i, crowdingDistance f pop i, rk⟩) ++ buildOrder pop (rk + 1) rest

/-- Model of `nsga_order` (lines 273-317, built-in fallback branch): build
the feasibility-split fronts, attach ranks and crowding, and stable-sort by
(rank asc, crowding desc). -/
def nsgaOrder (objs : List Vec) (pens : List ℚ) : List OrderEntry :=
  ssort entryLE (buildOrder objs 1 (nsgaFronts objs pens))

/-! ## The /rank endpoint -/

/-- One emitted result row (fields of `result_item`, lines 583-593).  The
prose enrichments (`conflicts`, `explanation`, the serialized `alerts`)
carry no ranking data and are outside the core per spec §1; they are not
modelled.  `induction_category` records the category computed at lines
576-581 (the source computes it for every emitted row but, seemingly by
oversight, never attaches it to `result_item`; the claims are about the
assignment rule, so the computed value is recorded here). -/
structure RankResult where
  train_id : Option String
  pareto_rank : ℕ
  fitness_certificate_status : String
  job_card_status : String
  branding_priority : String
  mileage : ℚ
  cleaning_status : String
  stabling_position : String
  updated_at : Option String
  induction_category : String
deriving DecidableEq, Inhabited

/-- The induction-category rule of `rank_endpoint` (lines 576-581). -/
def inductionCategory (m : MappedRow) : String :=
  if m.fitness_invalid then "Inspection Bay Hold"
  else if m.cleaning_pending || m.cleaning_partial then "Cleaning/Detailing"
  else "Revenue Service"

/-- Sequential effectful map, modelling a Python list comprehension or loop
whose body can raise: the first exception aborts the whole batch. -/
def exceptMap (f : α → Except String β) : List α → Except String (List β)
  | [] => .ok []
  | x :: xs => do
    let y ← f x
    let ys ← exceptMap f xs
    .ok (y :: ys)

/-- Model of the computational core of `rank_endpoint` (lines 539-615):
fleet-average mileage (empty batch divides by 1), objective mapping,
weighting, NSGA ordering, and the per-row result assembly in final rank
order. -/
def rankEndpoint (rows : List Row) (w : Weights) : Except String (List RankResult) := do
  let mileages ← exceptMap mileageVal rows
  let fleetAvg : ℚ := mileages.sum / (if rows.length = 0 then 1 else (rows.length : ℚ))
  let mapped ← exceptMap (fun r => mapRowToObjectives r fleetAvg) rows
  let rawObjs := mapped.map (fun m => m.objectives)
  let penalties := mapped.map (fun m => m.penalty)
  let weighted := applyWeights rawObjs w
  let order := nsgaOrder weighted penalties
  .ok (order.map (fun e =>
    let base := rows.getD e.idx default
    let m := mapped.getD e.idx default
    { train_id := base.train_id
      pareto_rank := e.rank
      fitness_certificate_status := m.fitness_status
      job_card_status := m.job_card_status
      branding_priority := m.branding_priority
      mileage := m.mileage
      cleaning_status := m.cleaning_status
      stabling_position := m.stabling_position
      updated_at := m.updated_at
      induction_category := inductionCategory m }))

/-! ## CSV ingestion of nsga_train_ranking.py -/

/-- A parsed CSV data row, as `csv.DictReader` yields it: an association
list from column name to cell text. -/
abbrev CsvRow := List (String × String)

/-- The typed trainset record of `nsga_train_ranking.py`. -/
structure TrainInput where
  train_id : String
  fitness_valid : Bool
  open_work_orders : ℤ
  branding_hours_remaining : ℚ
  mileage_km : ℚ
  mileage_target_km : ℚ
  cleaning_need_score : ℚ
  cleaning_slot_available : Bool
  stabling_move_minutes : ℚ
deriving DecidableEq, Inhabited

/-- Column access `row[k]`: a missing key raises `KeyError`, re-raised by
`read_csv` as `ValueError("Missing required CSV column: 'k'")` (the quotes
around the key name are elided here). -/
def lookupCol (row : CsvRow) (k : String) : Except String String :=
  match row.lookup k with
  | some v => .ok v
  | none => .error ("Missing required CSV column: " ++ k)

/-- Python `str(x).strip().lower() in ("1","true","yes","y")`. -/
def truthCell (s : String) : Bool :=
  let t : String := ⟨lowerL (stripL s.data)⟩
  t = "1" || t = "true" || t = "yes" || t = "y"

/-- `int(cell)`: an unparsable cell raises an uncaught `ValueError`. -/
def intCell (s : String) : Except String ℤ :=
  match parsePyInt s with
  | some n => .ok n
  | none => .error ("invalid literal for int() with base 10: " ++ s)

/-- `float(cell)`: an unparsable cell raises an uncaught `ValueError`. -/
def floatCell (s : String) : Except String ℚ :=
  match parsePyFloat s with
  | some q => .ok q
  | none => .error ("could not convert string to float: " ++ s)

/-- Ingestion of one CSV row, in the source's field order (`train_id` is
accessed first, so a row missing it fails with its `KeyError` before any
other column is looked at). -/
def readCsvRow (row : CsvRow) : Except String TrainInput := do
  let tid ← lookupCol row "train_id"
  let fv ← lookupCol row "fitness_valid"
  let owo ← lookupCol row "open_work_orders"
  let owoN ← intCell owo
  let bhr ← lookupCol row "branding_hours_remaining"
  let bhrQ ← floatCell bhr
  let mk ← lookupCol row "mileage_km"
  let mkQ ← floatCell mk
  let mtk ← lookupCol row "mileage_target_km"
  let mtkQ ← floatCell mtk
  let cns ← lookupCol row "cleaning_need_score"
  let cnsQ ← floatCell cns
  let csa ← lookupCol row "cleaning_slot_available"
  let smm ← lookupCol row "stabling_move_minutes"
  let smmQ ← floatCell smm
  .ok { train_id := ⟨stripL tid.data⟩
        fitness_valid := truthCell fv
        open_work_orders := owoN
        branding_hours_remaining := bhrQ
        mileage_km := mkQ
        mileage_target_km := mtkQ
        cleaning_need_score := cnsQ
        cleaning_slot_available := truthCell csa
        stabling_move_minutes := smmQ }

/-- Model of `read_csv` (lines 105-126): rows are ingested in order and the
first failure aborts the whole read. -/
def readCsv (rows : List CsvRow) : Except String (List TrainInput) :=
  exceptMap readCsvRow rows

/-! ## The disposition rule as the specification words it (claim C2) -/

/-- Modelled from the spec (§4.6) and claim C2's wording, for comparison
with the endpoint's rule: maintenance hold requires invalid fitness AND an
open/critical/major job card; then cleaning pending/partial; otherwise
revenue service.  This is the comparison definition for a refinement
claim, not a translation of the source. -/
def specDisposition (row : Row) : String :=
  let f := normText row.fitness
  let j := normText row.job_cards
  let c := normText row.cleaning
  let invalid := pyIn "expired" f || pyIn "invalid" f || pyIn "revoked" f
  let openJobs := pyIn "open" j || pyIn "critical" j || pyIn "major" j
  let cleaningDue := pyIn "pending" c || pyIn "partial" c
  if invalid && openJobs then "Maintenance Hold"
  else if cleaningDue then "Cleaning/Detailing"
  else "Revenue Service"

/-- Category of a row as the endpoint computes it (the mapper's alert flags
feed lines 576-581); the fleet average does not influence any of the flags
involved but is threaded for faithfulness. -/
def endpointCategory (row : Row) (fleet_avg : ℚ) : Except String String :=
  (mapRowToObjectives row fleet_avg).map inductionCategory

/-- The rank assigned to index `i` by the final order (the unique entry of
`nsga_order`'s output whose first component is `i`). -/
def rankOf (objs : List Vec) (pens : List ℚ) (i : ℕ) : ℕ :=
  (((nsgaOrder objs pens).filter (fun e => decide (e.idx = i))).headD default).rank

/-! ## Proof-side auxiliary definitions -/

/-- The flat event list of one round: every decrement performed while the
members of `F` are processed in order. -/
def events (pop : List Vec) (F : List ℕ) : List ℕ := (F.map (domSet pop)).flatten

/-- Number of dominators of `q` that have not been emitted yet; the quantity
tracked by `n_dom[q]`. -/
def remCount (pop : List Vec) (E : List ℕ) (q : ℕ) : ℕ :=
  (domList pop q).countP (fun p => decide (p ∉ E))

/-- The invariant of the peeling loop at the start of a round: `E` is the
flat list of already-emitted fronts, `c` the current counts, `F` the front
about to be emitted. -/
structure LoopInv (pop : List Vec) (E : List ℕ) (c : ℕ → ℤ) (F : List ℕ) : Prop where
  hc : ∀ q, c q = (remCount pop E q : ℤ)
  hFsub : ∀ q ∈ F, q ∈ List.range pop.length
  hFdone : ∀ q ∈ F, ∀ p ∈ domList pop q, p ∈ E
  hEdone : ∀ q ∈ E, ∀ p ∈ domList pop q, p ∈ E
  hEsub : ∀ q ∈ E, q ∈ List.range pop.length
  hnd : (E ++ F).Nodup
  hrem : ∀ q ∈ List.range pop.length, q ∉ E → q ∉ F → ∃ p ∈ domList pop q, p ∉ E
  hne : E = [] ∨ ∀ q ∈ F, domList pop q ≠ []

/-! ## Counting toolbox -/

/-- Splitting a `countP` along a second predicate. -/
theorem countP_split (p r : α → Bool) (l : List α) :
    l.countP p = l.countP (fun a => p a && r a) + l.countP (fun a => p a && !r a) := by
  induction l with
  | nil => simp
  | cons x xs ih =>
    simp only [List.countP_cons]
    cases hp : p x <;> cases hr : r x <;> simp [hp, hr] <;> omega

/-- `countP` only depends on the predicate's values on the list. -/
theorem countP_congrm {p q : α → Bool} (l : List α) (h : ∀ a ∈ l, p a = q a) :
    l.countP p = l.countP q := by
  induction l with
  | nil => rfl
  | cons x xs ih =>
    simp only [List.countP_cons, h x (List.mem_cons_self x xs)]
    rw [ih (fun a ha => h a (List.mem_cons_of_mem x ha))]

/-- On a duplicate-free list, counting occurrences of a fixed element yields
an indicator. -/
theorem countP_eq_single [DecidableEq α] (x : α) (l : List α) (hl : l.Nodup) :
    l.countP (fun a => decide (a = x)) = if x ∈ l then 1 else 0 := by
  induction l with
  | nil => simp
  | cons y ys ih =>
    rcases List.nodup_cons.mp hl with ⟨hy, hys⟩
    simp only [List.countP_cons, ih hys, List.mem_cons]
    by_cases hxy : y = x
    · subst hxy
      simp [hy]
    · simp [hxy, Ne.symm hxy]

/-- Symmetric double counting of a finite intersection. -/
theorem countP_mem_comm [DecidableEq α] {l₁ l₂ : List α} (h₁ : l₁.Nodup) (h₂ : l₂.Nodup) :
    l₁.countP (fun a => decide (a ∈ l₂)) = l₂.countP (fun a => decide (a ∈ l₁)) := by
  induction l₁ with
  | nil => simp [List.countP_eq_zero]
  | cons x xs ih =>
    rcases List.nodup_cons.mp h₁ with ⟨hx, hxs⟩
    simp only [List.countP_cons, ih hxs]
    have hsplit := countP_split (fun a => decide (a ∈ x :: xs)) (fun a => decide (a ∈ xs)) l₂
    have h1 : l₂.countP (fun a => decide (a ∈ x :: xs) && decide (a ∈ xs))
        = l₂.countP (fun a => decide (a ∈ xs)) := by
      apply countP_congrm
      intro a _
      by_cases hm : a ∈ xs <;> simp [hm, List.mem_cons]
    have h2 : l₂.countP (fun a => decide (a ∈ x :: xs) && !decide (a ∈ xs))
        = l₂.countP (fun a => decide (a = x)) := by
      apply countP_congrm
      intro a _
      by_cases hm : a ∈ xs
      · have hne : a ≠ x := fun hax => hx (hax ▸ hm)
        simp [hm, hne, List.mem_cons]
      · by_cases hax : a = x
        · subst hax; simp [hm]
        · simp [hm, hax, List.mem_cons]
    rw [h1, h2, countP_eq_single x l₂ h₂] at hsplit
    rw [hsplit]
    by_cases hm : x ∈ l₂ <;> simp [hm]

/-- A positive `countP` yields a witness. -/
theorem exists_of_countP_pos {p : α → Bool} {l : List α} (h : 0 < l.countP p) :
    ∃ a ∈ l, p a = true :=
  List.countP_pos_iff.mp h

/-! ## Stable insertion sort: permutation, sortedness, stability -/

theorem sinsert_perm (le : α → α → Bool) (x : α) (l : List α) :
    (sinsert le x l).Perm (x :: l) := by
  induction l with
  | nil => simp [sinsert]
  | cons y ys ih =>
    by_cases hc : (le x y && !le y x) = true
    · rw [sinsert, if_pos hc]
    · rw [sinsert, if_neg hc]
      exact (ih.cons y).trans (List.Perm.swap x y ys)

theorem ssort_aux_perm (le : α → α → Bool) :
    ∀ (l acc : List α), (l.foldl (fun acc x => sinsert le x acc) acc).Perm (acc ++ l) := by
  intro l
  induction l with
  | nil => intro acc; simp
  | cons x xs ih =>
    intro acc
    rw [List.foldl_cons]
    exact (ih (sinsert le x acc)).trans
      (((sinsert_perm le x acc).append_right xs).trans List.perm_middle.symm)

theorem ssort_perm (le : α → α → Bool) (l : List α) : (ssort le l).Perm l :=
  ssort_aux_perm le l []

theorem ssort_length (le : α → α → Bool) (l : List α) : (ssort le l).length = l.length :=
  (ssort_perm le l).length_eq

theorem ssort_mem (le : α → α → Bool) (l : List α) (a : α) :
    a ∈ ssort le l ↔ a ∈ l :=
  (ssort_perm le l).mem_iff

/-- Sorted lists (with a total transitive comparison) stay sorted under
stable insertion. -/
theorem sinsert_pairwise (le : α → α → Bool)
    (htot : ∀ a b, le a b = true ∨ le b a = true)
    (htr : ∀ a b c, le a b = true → le b c = true → le a c = true)
    (x : α) (l : List α) (hl : l.Pairwise (fun a b => le a b = true)) :
    (sinsert le x l).Pairwise (fun a b => le a b = true) := by
  induction l with
  | nil => simp [sinsert]
  | cons y ys ih =>
    rcases List.pairwise_cons.mp hl with ⟨hy, hys⟩
    by_cases hc : (le x y && !le y x) = true
    · rw [sinsert, if_pos hc]
      obtain ⟨hxy, _⟩ : le x y = true ∧ le y x = false := by simpa using hc
      refine List.Pairwise.cons ?_ hl
      intro z hz
      rcases List.mem_cons.mp hz with rfl | hz
      · exact hxy
      · exact htr x y z hxy (hy z hz)
    · rw [sinsert, if_neg hc]
      have hyx : le y x = true := by
        cases hxy : le x y <;> cases hyx : le y x
        · rcases htot x y with h | h
          · exact absurd h (by simp [hxy])
          · exact absurd h (by simp [hyx])
        · rfl
        · exact absurd hc (by simp [hxy, hyx])
        · rfl
      refine List.Pairwise.cons ?_ (ih hys)
      intro z hz
      rcases List.mem_cons.mp ((sinsert_perm le x ys).mem_iff.mp hz) with rfl | hz
      · exact hyx
      · exact hy z hz

theorem ssort_pairwise (le : α → α → Bool)
    (htot : ∀ a b, le a b = true ∨ le b a = true)
    (htr : ∀ a b c, le a b = true → le b c = true → le a c = true)
    (l : List α) : (ssort le l).Pairwise (fun a b => le a b = true) := by
  suffices h : ∀ (l acc : List α), acc.Pairwise (fun a b => le a b = true) →
      (l.foldl (fun acc x => sinsert le x acc) acc).Pairwise (fun a b => le a b = true) from
    h l [] (by simp)
  intro l
  induction l with
  | nil => intro acc hacc; exact hacc
  | cons x xs ih =>
    intro acc hacc
    exact ih (sinsert le x acc) (sinsert_pairwise le htot htr x acc hacc)

/-- When the new element is `le`-above everything, stable insertion appends. -/
theorem sinsert_append (le : α → α → Bool) (x : α) (l : List α)
    (h : ∀ y ∈ l, le y x = true) : sinsert le x l = l ++ [x] := by
  induction l with
  | nil => rfl
  | cons y ys ih =>
    have hyx := h y (List.mem_cons_self y ys)
    have hc : (le x y && !le y x) = false := by simp [hyx]
    rw [sinsert, if_neg (by simp [hc]), ih (fun z hz => h z (List.mem_cons_of_mem y hz))]
    rfl

/-- A list whose elements compare `le` in every direction is a fixed point of
the stable sort (Python's stable `sorted` keeps the order of tied keys). -/
theorem ssort_of_all (le : α → α → Bool) (l : List α)
    (h : ∀ a ∈ l, ∀ b ∈ l, le a b = true) : ssort le l = l := by
  suffices haux : ∀ (t acc : List α), (∀ a ∈ acc ++ t, ∀ b ∈ acc ++ t, le a b = true) →
      (t.foldl (fun acc x => sinsert le x acc) acc) = acc ++ t by
    simpa [ssort] using haux l [] (by simpa using h)
  intro t
  induction t with
  | nil => intro acc _; simp
  | cons x xs ih =>
    intro acc hall
    have hx : sinsert le x acc = acc ++ [x] := by
      apply sinsert_append
      intro y hy
      exact hall y (by simp [hy]) x (by simp)
    have hall' : ∀ a ∈ (acc ++ [x]) ++ xs, ∀ b ∈ (acc ++ [x]) ++ xs, le a b = true := by
      intro a ha b hb
      apply hall <;>
        (simp only [List.mem_append, List.mem_cons, List.mem_singleton,
          List.not_mem_nil, or_false] at *; tauto)
    rw [List.foldl_cons, hx, ih (acc ++ [x]) hall']
    simp

/-- Stability of one insertion: relative to a fixed key (all elements tied
with `e`), inserting `x` into a sorted list appends `x` after the tied
elements already present. -/
theorem sinsert_filter_keyEq (le : α → α → Bool)
    (htr : ∀ a b c, le a b = true → le b c = true → le a c = true)
    (e x : α) (l : List α) (hl : l.Pairwise (fun a b => le a b = true)) :
    (sinsert le x l).filter (fun y => le e y && le y e)
      = l.filter (fun y => le e y && le y e)
        ++ (if le e x && le x e then [x] else []) := by
  induction l with
  | nil => cases h : (le e x && le x e) <;> simp [sinsert, List.filter, h]
  | cons y ys ih =>
    rcases List.pairwise_cons.mp hl with ⟨hy, hys⟩
    by_cases hc : (le x y && !le y x) = true
    · rw [sinsert, if_pos hc]
      obtain ⟨hxy, hnyx⟩ : le x y = true ∧ le y x = false := by simpa using hc
      by_cases hex : (le e x && le x e) = true
      · -- no key-tied element can sit at or after the insertion point
        obtain ⟨hex1, hex2⟩ : le e x = true ∧ le x e = true := by simpa using hex
        have hnone : ∀ z ∈ y :: ys, (le e z && le z e) = false := by
          intro z hz
          cases hzt : (le e z && le z e)
          · rfl
          · exfalso
            obtain ⟨hez, hze⟩ : le e z = true ∧ le z e = true := by simpa using hzt
            have hyz : le y z = true := by
              rcases List.mem_cons.mp hz with rfl | hz
              · exact htr z e z hze hez
              · exact hy z hz
            have hzx : le z x = true := htr z e x hze hex1
            have : le y x = true := htr y z x hyz hzx
            rw [this] at hnyx
            cases hnyx
        have hfilter0 : (y :: ys).filter (fun z => le e z && le z e) = [] :=
          List.filter_eq_nil_iff.mpr (fun z hz => by simp [hnone z hz])
        rw [hfilter0, if_pos hex]
        have hstep : (x :: y :: ys).filter (fun z => le e z && le z e)
            = x :: (y :: ys).filter (fun z => le e z && le z e) := by
          simp [List.filter_cons, hex]
        rw [hstep, hfilter0]
        rfl
      · have hex' : (le e x && le x e) = false := by
          cases h : (le e x && le x e)
          · rfl
          · exact absurd h hex
        rw [if_neg hex]
        simp [List.filter_cons, hex']
    · rw [sinsert, if_neg hc]
      rw [List.filter_cons, List.filter_cons]
      cases hey : (le e y && le y e) <;> simp [hey, ih hys]

/-- Stability of the whole sort: the subsequence of elements tied with any
fixed key `e` is preserved. -/
theorem ssort_filter_keyEq (le : α → α → Bool)
    (htot : ∀ a b, le a b = true ∨ le b a = true)
    (htr : ∀ a b c, le a b = true → le b c = true → le a c = true)
    (e : α) (l : List α) :
    (ssort le l).filter (fun y => le e y && le y e)
      = l.filter (fun y => le e y && le y e) := by
  suffices haux : ∀ (t acc : List α), acc.Pairwise (fun a b => le a b = true) →
      (t.foldl (fun acc x => sinsert le x acc) acc).filter (fun y => le e y && le y e)
        = acc.filter (fun y => le e y && le y e) ++ t.filter (fun y => le e y && le y e) by
    simpa using haux l [] (by simp)
  intro t
  induction t with
  | nil => intro acc _; simp
  | cons x xs ih =>
    intro acc hacc
    rw [List.foldl_cons, ih (sinsert le x acc) (sinsert_pairwise le htot htr x acc hacc),
      sinsert_filter_keyEq le htr e x acc hacc]
    simp only [List.filter_cons]
    cases hex : (le e x && le x e) <;> simp [hex]

/-! ## Dominance: irreflexivity and transitivity -/

theorem dominates_irrefl (a : Vec) : dominates a a = false := by
  suffices h : (a.zip a).any (fun p => decide (p.1 < p.2)) = false by
    unfold dominates
    rw [h, Bool.and_false]
  induction a with
  | nil => rfl
  | cons x xs ih => simp [List.zip_cons_cons, ih]

theorem dominates_nil_right (a : Vec) : dominates a [] = false := by
  cases a <;> rfl

/-- The componentwise-≤ half of dominance is transitive over equal-length
vectors. -/
theorem allLe_trans : ∀ (a b c : Vec), a.length = b.length → b.length = c.length →
    ((a.zip b).all fun p => decide (p.1 ≤ p.2)) = true →
    ((b.zip c).all fun p => decide (p.1 ≤ p.2)) = true →
    ((a.zip c).all fun p => decide (p.1 ≤ p.2)) = true := by
  intro a
  induction a with
  | nil => intro b c _ _ _ _; rfl
  | cons x xs ih =>
    intro b c hab hbc h1 h2
    cases b with
    | nil => simp at hab
    | cons y ys =>
      cases c with
      | nil => simp at hbc
      | cons z zs =>
        simp only [List.zip_cons_cons, List.all_cons, Bool.and_eq_true, decide_eq_true_eq]
          at h1 h2 ⊢
        exact ⟨le_trans h1.1 h2.1,
          ih ys zs (by simpa using hab) (by simpa using hbc) h1.2 h2.2⟩

/-- A strict witness in `a < b` survives composition with `b ≤ c`. -/
theorem anyLt_allLe : ∀ (a b c : Vec), a.length = b.length → b.length = c.length →
    ((a.zip b).any fun p => decide (p.1 < p.2)) = true →
    ((b.zip c).all fun p => decide (p.1 ≤ p.2)) = true →
    ((a.zip c).any fun p => decide (p.1 < p.2)) = true := by
  intro a
  induction a with
  | nil => intro b c _ _ h _; simp at h
  | cons x xs ih =>
    intro b c hab hbc h1 h2
    cases b with
    | nil => simp at hab
    | cons y ys =>
      cases c with
      | nil => simp at hbc
      | cons z zs =>
        simp only [List.zip_cons_cons, List.any_cons, List.all_cons, Bool.or_eq_true,
          Bool.and_eq_true, decide_eq_true_eq] at h1 h2 ⊢
        rcases h1 with h1 | h1
        · exact Or.inl (lt_of_lt_of_le h1 h2.1)
        · exact Or.inr (ih ys zs (by simpa using hab) (by simpa using hbc) h1 h2.2)

/-- Dominance is transitive over equal-length vectors. -/
theorem dominates_trans {a b c : Vec} (hab : a.length = b.length) (hbc : b.length = c.length)
    (h1 : dominates a b = true) (h2 : dominates b c = true) : dominates a c = true := by
  have h1' : ((a.zip b).all fun p => decide (p.1 ≤ p.2)) = true
      ∧ ((a.zip b).any fun p => decide (p.1 < p.2)) = true := by
    simpa [dominates] using h1
  have h2' : ((b.zip c).all fun p => decide (p.1 ≤ p.2)) = true
      ∧ ((b.zip c).any fun p => decide (p.1 < p.2)) = true := by
    simpa [dominates] using h2
  have hle := allLe_trans a b c hab hbc h1'.1 h2'.1
  have hlt := anyLt_allLe a b c hab hbc h1'.2 h2'.1
  simp [dominates, hle, hlt]

/-- A finite nonempty set carrying an irreflexive transitive relation has a
minimal element. -/
theorem exists_minimal {α : Type} (R : α → α → Prop) :
    ∀ (l : List α), l ≠ [] → (∀ a ∈ l, ¬ R a a) →
      (∀ a ∈ l, ∀ b ∈ l, ∀ c ∈ l, R a b → R b c → R a c) →
      ∃ m ∈ l, ∀ p ∈ l, ¬ R p m := by
  intro l
  induction l with
  | nil => intro h; cases h rfl
  | cons x xs ih =>
    intro _ hirr htr
    by_cases hxs : xs = []
    · subst hxs
      refine ⟨x, by simp, ?_⟩
      intro p hp
      have hpx : p = x := by simpa using hp
      subst hpx
      exact hirr p (by simp)
    · obtain ⟨m, hm, hmin⟩ := ih hxs
        (fun a ha => hirr a (List.mem_cons_of_mem x ha))
        (fun a ha b hb c hc => htr a (List.mem_cons_of_mem x ha)
          b (List.mem_cons_of_mem x hb) c (List.mem_cons_of_mem x hc))
      by_cases hxm : R x m
      · refine ⟨x, by simp, ?_⟩
        intro p hp hpx
        rcases List.mem_cons.mp hp with rfl | hp'
        · exact hirr p (by simp) hpx
        · exact hmin p hp' (htr p (List.mem_cons_of_mem x hp') x (by simp)
            m (List.mem_cons_of_mem x hm) hpx hxm)
      · refine ⟨m, List.mem_cons_of_mem x hm, ?_⟩
        intro p hp
        rcases List.mem_cons.mp hp with rfl | hp'
        · exact hxm
        · exact hmin p hp'

/-! ## Membership facts for domSet / domList / vecAt -/

theorem mem_domList {pop : List Vec} {q p : ℕ} :
    p ∈ domList pop q ↔
      p ∈ List.range pop.length ∧ p ≠ q ∧ dominates (vecAt pop p) (vecAt pop q) = true := by
  simp [domList, and_assoc]

theorem mem_domSet {pop : List Vec} {p q : ℕ} :
    q ∈ domSet pop p ↔
      q ∈ List.range pop.length ∧ p ≠ q ∧ dominates (vecAt pop p) (vecAt pop q) = true := by
  simp [domSet, and_assoc]

theorem domList_nodup (pop : List Vec) (q : ℕ) : (domList pop q).Nodup :=
  (List.nodup_range pop.length).filter _

theorem domSet_nodup (pop : List Vec) (p : ℕ) : (domSet pop p).Nodup :=
  (List.nodup_range pop.length).filter _

theorem vecAt_mem {pop : List Vec} {i : ℕ} (hi : i < pop.length) : vecAt pop i ∈ pop := by
  unfold vecAt
  rw [List.getD_eq_getElem?_getD, List.getElem?_eq_getElem hi]
  exact List.getElem_mem hi

theorem vecAt_length {pop : List Vec} {m i : ℕ} (hdim : ∀ v ∈ pop, v.length = m)
    (hi : i < pop.length) : (vecAt pop i).length = m :=
  hdim _ (vecAt_mem hi)

/-! ## The peeling round: fold characterisation -/

theorem stepFront_eq_foldl (pop : List Vec) (c : ℕ → ℤ) (F : List ℕ) :
    stepFront pop c F = (events pop F).foldl decStep (c, []) := by
  suffices h : ∀ (F : List ℕ) (st : (ℕ → ℤ) × List ℕ),
      F.foldl (fun st p => (domSet pop p).foldl decStep st) st
        = ((F.map (domSet pop)).flatten).foldl decStep st from h F (c, [])
  intro F
  induction F with
  | nil => intro st; rfl
  | cons p ps ih =>
    intro st
    simp only [List.foldl_cons, List.map_cons, List.flatten_cons, List.foldl_append]
    exact ih _

theorem foldDec_counts : ∀ (ev : List ℕ) (c : ℕ → ℤ) (acc : List ℕ) (j : ℕ),
    (ev.foldl decStep (c, acc)).1 j = c j - (ev.count j : ℤ) := by
  intro ev
  induction ev with
  | nil => intro c acc j; simp
  | cons e rest ih =>
    intro c acc j
    rw [List.foldl_cons]
    have hstep : decStep (c, acc) e
        = (fun j => if j = e then c e - 1 else c j,
           if c e - 1 = 0 then acc ++ [e] else acc) := by
      unfold decStep
      simp only [if_pos rfl]
      by_cases h : c e - 1 = 0 <;> simp [h]
    rw [hstep]
    rw [ih]
    simp only [List.count_cons]
    by_cases hj : j = e
    · subst hj; simp; ring
    · have : ¬(e == j) = true := by simpa using fun h => hj h.symm
      simp [hj, this]

theorem foldDec_mem : ∀ (ev : List ℕ) (c : ℕ → ℤ) (acc : List ℕ) (q : ℕ),
    q ∈ (ev.foldl decStep (c, acc)).2 ↔
      q ∈ acc ∨ (0 < c q ∧ c q ≤ (ev.count q : ℤ)) := by
  intro ev
  induction ev with
  | nil =>
    intro c acc q
    simp only [List.foldl_nil, List.count_nil, Nat.cast_zero]
    constructor
    · exact fun h => Or.inl h
    · rintro (h | ⟨h1, h2⟩)
      · exact h
      · omega
  | cons e rest ih =>
    intro c acc q
    rw [List.foldl_cons]
    have hstep : decStep (c, acc) e
        = (fun j => if j = e then c e - 1 else c j,
           if c e - 1 = 0 then acc ++ [e] else acc) := by
      unfold decStep
      simp only [if_pos rfl]
      by_cases h : c e - 1 = 0 <;> simp [h]
    rw [hstep, ih]
    have hcount : ((e :: rest).count q : ℤ)
        = (rest.count q : ℤ) + (if q = e then 1 else 0) := by
      by_cases hq : q = e
      · subst hq; simp [List.count_cons]
      · simp [List.count_cons, hq, fun h : e = q => hq h.symm]
    rw [hcount]
    by_cases hq : q = e
    · by_cases h1 : c e - 1 = 0
      · simp only [if_pos hq, if_pos h1]
        rw [hq]
        apply iff_of_true
        · exact Or.inl (List.mem_append.mpr (Or.inr (List.mem_singleton.mpr rfl)))
        · exact Or.inr ⟨by omega, by
            have hk : (0 : ℤ) ≤ (rest.count e : ℤ) := by positivity
            omega⟩
      · simp only [if_pos hq, if_neg h1]
        rw [hq]
        apply or_congr_right
        omega
    · by_cases h1 : c e - 1 = 0
      · simp only [if_neg hq, if_pos h1, add_zero]
        constructor
        · rintro (hmem | hx)
          · rcases List.mem_append.mp hmem with h | h
            · exact Or.inl h
            · exact absurd (List.mem_singleton.mp h) hq
          · exact Or.inr hx
        · rintro (hmem | hx)
          · exact Or.inl (List.mem_append.mpr (Or.inl hmem))
          · exact Or.inr hx
      · simp only [if_neg hq, if_neg h1, add_zero]

theorem foldDec_nodup : ∀ (ev : List ℕ) (c : ℕ → ℤ) (acc : List ℕ),
    acc.Nodup → (∀ q ∈ acc, c q ≤ 0) → (ev.foldl decStep (c, acc)).2.Nodup := by
  intro ev
  induction ev with
  | nil => intro c acc h _; exact h
  | cons e rest ih =>
    intro c acc hnd hle
    rw [List.foldl_cons]
    have hstep : decStep (c, acc) e
        = (fun j => if j = e then c e - 1 else c j,
           if c e - 1 = 0 then acc ++ [e] else acc) := by
      unfold decStep
      simp only [if_pos rfl]
      by_cases h : c e - 1 = 0 <;> simp [h]
    rw [hstep]
    by_cases h1 : c e - 1 = 0
    · have henot : e ∉ acc := fun hmem => by have := hle e hmem; omega
      simp only [if_pos h1]
      refine ih _ _ (by simp [List.nodup_append, henot, hnd]) ?_
      intro q hq
      rcases List.mem_append.mp hq with hq | hq
      · have hne : q ≠ e := fun h => henot (h ▸ hq)
        simpa [hne] using hle q hq
      · simp only [List.mem_singleton] at hq
        subst hq
        simp [h1]
    · simp only [if_neg h1]
      refine ih _ _ hnd ?_
      intro q hq
      by_cases hqe : q = e
      · subst hqe
        have := hle q hq
        simp
        omega
      · simpa [hqe] using hle q hq

/-! ## The peeling-loop invariant -/

theorem count_indicator (l : List ℕ) (hl : l.Nodup) (q : ℕ) :
    l.count q = if q ∈ l then 1 else 0 := by
  by_cases h : q ∈ l
  · rw [if_pos h]
    exact List.count_eq_one_of_mem hl h
  · rw [if_neg h]
    exact List.count_eq_zero.mpr h

theorem sum_indicator (F : List ℕ) (Q : ℕ → Prop) [DecidablePred Q] :
    (F.map (fun p => if Q p then 1 else 0)).sum = F.countP (fun p => decide (Q p)) := by
  induction F with
  | nil => rfl
  | cons p ps ih =>
    simp only [List.map_cons, List.sum_cons, List.countP_cons, ih]
    by_cases h : Q p <;> simp [h]
    omega

theorem vecAt_outside {pop : List Vec} {q : ℕ} (hq : q ∉ List.range pop.length) :
    vecAt pop q = [] := by
  unfold vecAt
  rw [List.getD_eq_getElem?_getD, List.getElem?_eq_none (by simpa using hq)]
  rfl

theorem domList_outside {pop : List Vec} {q : ℕ} (hq : q ∉ List.range pop.length) :
    domList pop q = [] := by
  unfold domList
  apply List.filter_eq_nil_iff.mpr
  intro p _
  rw [vecAt_outside hq, dominates_nil_right]
  simp

/-- Total number of decrements applied to `q` in one round processing `F`. -/
theorem events_count (pop : List Vec) (F : List ℕ) (q : ℕ)
    (hFsub : ∀ p ∈ F, p ∈ List.range pop.length) (hFnd : F.Nodup) :
    (events pop F).count q = (domList pop q).countP (fun p => decide (p ∈ F)) := by
  by_cases hq : q ∈ List.range pop.length
  · unfold events
    rw [List.count_flatten, List.map_map]
    have h1 : (F.map (fun p => ((domSet pop p).count q)))
        = F.map (fun p => if q ∈ domSet pop p then 1 else 0) :=
      List.map_congr_left (fun p _ => count_indicator _ (domSet_nodup pop p) q)
    have h2 : (F.map (fun p => if q ∈ domSet pop p then 1 else 0)).sum
        = F.countP (fun p => decide (q ∈ domSet pop p)) :=
      sum_indicator F (fun p => q ∈ domSet pop p)
    have h3 : F.countP (fun p => decide (q ∈ domSet pop p))
        = F.countP (fun p => decide (p ∈ domList pop q)) := by
      apply countP_congrm
      intro p hp
      apply decide_eq_decide.mpr
      rw [mem_domSet, mem_domList]
      constructor
      · rintro ⟨_, h2, h3⟩; exact ⟨hFsub p hp, h2, h3⟩
      · rintro ⟨_, h2, h3⟩; exact ⟨hq, h2, h3⟩
    have h4 : F.countP (fun p => decide (p ∈ domList pop q))
        = (domList pop q).countP (fun p => decide (p ∈ F)) :=
      countP_mem_comm hFnd (domList_nodup pop q)
    rw [show (List.count q ∘ domSet pop) = fun p => (domSet pop p).count q from rfl] at *
    rw [h1, h2, h3, h4]
  · have h1 : (events pop F).count q = 0 := by
      apply List.count_eq_zero.mpr
      intro hmem
      rcases List.mem_flatten.mp hmem with ⟨l, hl, hql⟩
      rcases List.mem_map.mp hl with ⟨p, _, rfl⟩
      exact hq (mem_domSet.mp hql).1
    rw [h1, domList_outside hq]
    rfl

/-- Splitting `remCount` along the front being emitted. -/
theorem remCount_append (pop : List Vec) (E F : List ℕ) (q : ℕ)
    (hdisj : ∀ p ∈ F, p ∉ E) :
    remCount pop E q
      = (domList pop q).countP (fun p => decide (p ∈ F)) + remCount pop (E ++ F) q := by
  unfold remCount
  rw [countP_split (fun p => decide (p ∉ E)) (fun p => decide (p ∈ F)) (domList pop q)]
  congr 1
  · apply countP_congrm
    intro p _
    by_cases h : p ∈ F
    · simp [h, hdisj p h]
    · simp [h]
  · apply countP_congrm
    intro p _
    by_cases h1 : p ∈ E <;> by_cases h2 : p ∈ F <;> simp [h1, h2, List.mem_append]

/-- One round of the peeling loop preserves the invariant, emitting `F`. -/
theorem stepFront_inv (pop : List Vec) (E : List ℕ) (c : ℕ → ℤ) (F : List ℕ)
    (inv : LoopInv pop E c F) :
    LoopInv pop (E ++ F) (stepFront pop c F).1 (stepFront pop c F).2 := by
  have hEnd : E.Nodup := (List.nodup_append.mp inv.hnd).1
  have hFnd : F.Nodup := (List.nodup_append.mp inv.hnd).2.1
  have hdisjEF := (List.nodup_append.mp inv.hnd).2.2
  have hdisj' : ∀ p ∈ F, p ∉ E := fun p hp hpE => hdisjEF hpE hp
  rw [stepFront_eq_foldl]
  set st := (events pop F).foldl decStep (c, []) with hst
  have hcounts : ∀ j, st.1 j = c j - ((events pop F).count j : ℤ) :=
    fun j => foldDec_counts _ _ _ j
  have hmem : ∀ q, q ∈ st.2 ↔ (0 < c q ∧ c q ≤ ((events pop F).count q : ℤ)) := by
    intro q
    rw [hst, foldDec_mem]
    simp
  have hnodup2 : st.2.Nodup := foldDec_nodup _ _ _ (by simp) (by simp)
  have hev : ∀ q, (events pop F).count q
      = (domList pop q).countP (fun p => decide (p ∈ F)) :=
    fun q => events_count pop F q inv.hFsub hFnd
  have hc' : ∀ q, st.1 q = (remCount pop (E ++ F) q : ℤ) := by
    intro q
    rw [hcounts, inv.hc, hev]
    have hr := remCount_append pop E F q hdisj'
    omega
  have hq_facts : ∀ q ∈ st.2, q ∈ List.range pop.length ∧ q ∉ E ∧ q ∉ F
      ∧ (∀ p ∈ domList pop q, p ∈ E ++ F) ∧ domList pop q ≠ [] := by
    intro q hq
    obtain ⟨hpos, hle⟩ := (hmem q).mp hq
    have hcq := inv.hc q
    have hremq : 0 < remCount pop E q := by omega
    obtain ⟨p0, hp0, hp0E⟩ := exists_of_countP_pos hremq
    have hqE : q ∉ E := by
      intro hqE
      have h0 : remCount pop E q = 0 := List.countP_eq_zero.mpr (fun p hp => by
        simpa using inv.hEdone q hqE p hp)
      omega
    have hqF : q ∉ F := by
      intro hqF
      have h0 : remCount pop E q = 0 := List.countP_eq_zero.mpr (fun p hp => by
        simpa using inv.hFdone q hqF p hp)
      omega
    have hqrange : q ∈ List.range pop.length := by
      have hcnt : 0 < (events pop F).count q := by omega
      have hqev : q ∈ events pop F := List.count_pos_iff.mp hcnt
      rcases List.mem_flatten.mp hqev with ⟨l, hl, hql⟩
      rcases List.mem_map.mp hl with ⟨p, _, rfl⟩
      exact (mem_domSet.mp hql).1
    have hz : remCount pop (E ++ F) q = 0 := by
      have h1 := hc' q
      have h2 := hcounts q
      have h3 := hev q
      omega
    have hsub : ∀ p ∈ domList pop q, p ∈ E ++ F := by
      intro p hp
      by_contra hpnot
      have hpz : 0 < remCount pop (E ++ F) q :=
        List.countP_pos_iff.mpr ⟨p, hp, by simpa using hpnot⟩
      omega
    have hnonempty : domList pop q ≠ [] := by
      intro hnil
      rw [hnil] at hp0
      simp at hp0
    exact ⟨hqrange, hqE, hqF, hsub, hnonempty⟩
  refine ⟨hc', fun q hq => (hq_facts q hq).1, fun q hq => (hq_facts q hq).2.2.2.1,
    ?_, ?_, ?_, ?_, Or.inr (fun q hq => (hq_facts q hq).2.2.2.2)⟩
  · intro q hq p hp
    rcases List.mem_append.mp hq with hq | hq
    · exact List.mem_append.mpr (Or.inl (inv.hEdone q hq p hp))
    · exact List.mem_append.mpr (Or.inl (inv.hFdone q hq p hp))
  · intro q hq
    rcases List.mem_append.mp hq with hq | hq
    · exact inv.hEsub q hq
    · exact inv.hFsub q hq
  · refine List.nodup_append.mpr ⟨inv.hnd, hnodup2, ?_⟩
    intro a haEF haS
    obtain ⟨_, haE, haF, _, _⟩ := hq_facts a haS
    rcases List.mem_append.mp haEF with h | h
    · exact haE h
    · exact haF h
  · intro q hqr hqEF hqS
    have hqE : q ∉ E := fun h => hqEF (List.mem_append.mpr (Or.inl h))
    have hqF : q ∉ F := fun h => hqEF (List.mem_append.mpr (Or.inr h))
    obtain ⟨p0, hp0, hp0E⟩ := inv.hrem q hqr hqE hqF
    have hr1 : 0 < remCount pop E q :=
      List.countP_pos_iff.mpr ⟨p0, hp0, by simpa using hp0E⟩
    have hcq := inv.hc q
    have hnotmem := (hmem q).not.mp hqS
    have hcnt : ((events pop F).count q : ℤ) < c q := by
      rcases not_and_or.mp hnotmem with h | h <;> omega
    have hpos' : 0 < remCount pop (E ++ F) q := by
      have h1 := hc' q
      have h2 := hcounts q
      omega
    obtain ⟨p, hp, hpEF⟩ := exists_of_countP_pos hpos'
    exact ⟨p, hp, by simpa using hpEF⟩

/-- The invariant holds on entry to the loop. -/
theorem initInv (pop : List Vec) :
    LoopInv pop [] (initCount pop)
      ((List.range pop.length).filter (fun i => decide (initCount pop i = 0))) := by
  refine ⟨?_, ?_, ?_, ?_, ?_, ?_, ?_, Or.inl rfl⟩
  · intro q
    unfold initCount remCount
    congr 1
    rw [countP_congrm (domList pop q) (fun p _ => (by simp : (decide (p ∉ ([] : List ℕ))) = true))]
    exact (congrFun List.countP_true (domList pop q)).symm
  · intro q hq
    exact (List.mem_filter.mp hq).1
  · intro q hq p hp
    exfalso
    have h0 : initCount pop q = 0 := by simpa using (List.mem_filter.mp hq).2
    unfold initCount at h0
    have hlen : (domList pop q).length = 0 := by exact_mod_cast h0
    rw [List.length_eq_zero] at hlen
    rw [hlen] at hp
    simp at hp
  · intro q hq
    simp at hq
  · intro q hq
    simp at hq
  · simpa using ((List.nodup_range pop.length).filter _)
  · intro q hq _ hq3
    have hnz : ¬ (initCount pop q = 0) := by
      intro h0
      exact hq3 (List.mem_filter.mpr ⟨hq, by simpa using h0⟩)
    have hlen : domList pop q ≠ [] := by
      intro hnil
      apply hnz
      unfold initCount
      rw [hnil]
      rfl
    obtain ⟨p, hp⟩ := List.exists_mem_of_ne_nil _ hlen
    exact ⟨p, hp, by simp⟩

/-! ## Properties of the peeling loop -/

theorem ndsLoop_sub (pop : List Vec) : ∀ (fuel : ℕ) (c : ℕ → ℤ) (F E : List ℕ),
    LoopInv pop E c F →
    ∀ G ∈ ndsLoop pop fuel c F, ∀ i ∈ G, i ∈ List.range pop.length := by
  intro fuel
  induction fuel with
  | zero =>
    intro c F E _ G hG
    simp [ndsLoop] at hG
  | succ n ih =>
    intro c F E inv G hG i hi
    cases F with
    | nil => simp [ndsLoop] at hG
    | cons f fs =>
      simp only [ndsLoop] at hG
      rcases List.mem_cons.mp hG with rfl | hG
      · exact inv.hFsub i hi
      · exact ih _ _ (E ++ f :: fs) (stepFront_inv pop E c (f :: fs) inv) G hG i hi

/-- Every front emitted by the loop is an antichain of the dominance
relation. -/
theorem ndsLoop_antichain (pop : List Vec) : ∀ (fuel : ℕ) (c : ℕ → ℤ) (F E : List ℕ),
    LoopInv pop E c F →
    ∀ G ∈ ndsLoop pop fuel c F, ∀ i ∈ G, ∀ j ∈ G,
      dominates (vecAt pop i) (vecAt pop j) = false := by
  intro fuel
  induction fuel with
  | zero =>
    intro c F E _ G hG
    simp [ndsLoop] at hG
  | succ n ih =>
    intro c F E inv G hG i hi j hj
    cases F with
    | nil => simp [ndsLoop] at hG
    | cons f fs =>
      simp only [ndsLoop] at hG
      rcases List.mem_cons.mp hG with rfl | hG
      · cases hdom : dominates (vecAt pop i) (vecAt pop j)
        · rfl
        · exfalso
          by_cases hij : i = j
          · subst hij
            rw [dominates_irrefl] at hdom
            cases hdom
          · have hiD : i ∈ domList pop j := mem_domList.mpr ⟨inv.hFsub i hi, hij, hdom⟩
            have hiE : i ∈ E := inv.hFdone j hj i hiD
            exact (List.nodup_append.mp inv.hnd).2.2 hiE hi
      · exact ih _ _ (E ++ f :: fs) (stepFront_inv pop E c (f :: fs) inv) G hG i hi j hj

theorem ndsLoop_getD_zero (pop : List Vec) (fuel : ℕ) (c : ℕ → ℤ) (F : List ℕ) :
    ∀ q, q ∈ (ndsLoop pop fuel c F).getD 0 [] → q ∈ F := by
  intro q hq
  cases fuel with
  | zero => simp [ndsLoop] at hq
  | succ n =>
    cases F with
    | nil => simp [ndsLoop] at hq
    | cons f fs =>
      simp only [ndsLoop, List.getD_cons_zero] at hq
      exact hq

/-- Every member of a front after the first is dominated by some member of
an earlier front (or of the already-emitted prefix `E`). -/
theorem ndsLoop_dom_earlier (pop : List Vec) : ∀ (fuel : ℕ) (c : ℕ → ℤ) (F E : List ℕ)
    (t q : ℕ), LoopInv pop E c F →
    q ∈ (ndsLoop pop fuel c F).getD (t + 1) [] →
    ∃ p, p ∈ E ++ ((ndsLoop pop fuel c F).take (t + 1)).flatten
      ∧ dominates (vecAt pop p) (vecAt pop q) = true := by
  intro fuel
  induction fuel with
  | zero =>
    intro c F E t q _ hq
    simp [ndsLoop] at hq
  | succ n ih =>
    intro c F E t q inv hq
    cases F with
    | nil => simp [ndsLoop] at hq
    | cons f fs =>
      have hstep := stepFront_inv pop E c (f :: fs) inv
      simp only [ndsLoop, List.getD_cons_succ] at hq
      cases t with
      | zero =>
        have hqF2 : q ∈ (stepFront pop c (f :: fs)).2 := ndsLoop_getD_zero pop n _ _ q hq
        have hnonempty : domList pop q ≠ [] := by
          rcases hstep.hne with hE | h
          · simp at hE
          · exact h q hqF2
        obtain ⟨p, hp⟩ := List.exists_mem_of_ne_nil _ hnonempty
        have hpE : p ∈ E ++ f :: fs := hstep.hFdone q hqF2 p hp
        refine ⟨p, ?_, (mem_domList.mp hp).2.2⟩
        simp only [ndsLoop, List.take_succ_cons, List.take_zero, List.flatten_cons,
          List.flatten_nil, List.append_nil]
        exact hpE
      | succ t2 =>
        obtain ⟨p, hpmem, hpdom⟩ := ih _ _ (E ++ f :: fs) t2 q hstep hq
        refine ⟨p, ?_, hpdom⟩
        simp only [ndsLoop, List.take_succ_cons, List.flatten_cons]
        simpa [List.append_assoc] using hpmem

/-- Coverage: with enough fuel the loop emits every index, without
duplicates.  The length hypothesis on the population's vectors makes
dominance transitive, which rules out unemittable cycles. -/
theorem ndsLoop_cover (pop : List Vec) (m : ℕ) (hdim : ∀ v ∈ pop, v.length = m) :
    ∀ (fuel : ℕ) (c : ℕ → ℤ) (F E : List ℕ), LoopInv pop E c F →
      pop.length ≤ fuel + E.length →
      (∀ q ∈ List.range pop.length, q ∈ E ∨ q ∈ (ndsLoop pop fuel c F).flatten)
      ∧ (E ++ (ndsLoop pop fuel c F).flatten).Nodup := by
  intro fuel
  induction fuel with
  | zero =>
    intro c F E inv hfuel
    have hEnd : E.Nodup := (List.nodup_append.mp inv.hnd).1
    constructor
    · intro q hqr
      left
      have hsubE : E.toFinset ⊆ Finset.range pop.length := by
        intro a ha
        rw [List.mem_toFinset] at ha
        exact Finset.mem_range.mpr (List.mem_range.mp (inv.hEsub a ha))
      have hcard : (Finset.range pop.length).card ≤ E.toFinset.card := by
        rw [Finset.card_range, List.toFinset_card_of_nodup hEnd]
        omega
      have hEq := Finset.eq_of_subset_of_card_le hsubE hcard
      have hqfin : q ∈ E.toFinset := by
        rw [hEq]
        exact Finset.mem_range.mpr (List.mem_range.mp hqr)
      exact List.mem_toFinset.mp hqfin
    · simpa [ndsLoop] using hEnd
  | succ n ih =>
    intro c F E inv hfuel
    cases F with
    | nil =>
      have hEnd : E.Nodup := (List.nodup_append.mp inv.hnd).1
      constructor
      · intro q hqr
        left
        by_contra hqE
        set U := (List.range pop.length).filter (fun x => decide (x ∉ E)) with hU
        have hUne : U ≠ [] := by
          intro h
          have hqU : q ∈ U := List.mem_filter.mpr ⟨hqr, by simpa using hqE⟩
          rw [h] at hqU
          simp at hqU
        have hUlen : ∀ a ∈ U, (vecAt pop a).length = m := fun a ha =>
          vecAt_length hdim (List.mem_range.mp (List.mem_filter.mp ha).1)
        obtain ⟨m0, hm0U, hmin⟩ := exists_minimal
          (fun a b => dominates (vecAt pop a) (vecAt pop b) = true) U hUne
          (fun a _ => by simp [dominates_irrefl])
          (fun a ha b hb c2 hc2 hab hbc =>
            dominates_trans (by rw [hUlen a ha, hUlen b hb])
              (by rw [hUlen b hb, hUlen c2 hc2]) hab hbc)
        have hm0r := (List.mem_filter.mp hm0U).1
        have hm0E : m0 ∉ E := by simpa using (List.mem_filter.mp hm0U).2
        obtain ⟨p, hpdomL, hpE⟩ := inv.hrem m0 hm0r hm0E (by simp)
        have hpU : p ∈ U :=
          List.mem_filter.mpr ⟨(mem_domList.mp hpdomL).1, by simpa using hpE⟩
        exact hmin p hpU (mem_domList.mp hpdomL).2.2
      · simpa [ndsLoop] using hEnd
    | cons f fs =>
      have hstep := stepFront_inv pop E c (f :: fs) inv
      have hfuel2 : pop.length ≤ n + (E ++ f :: fs).length := by
        simp only [List.length_append, List.length_cons]
        omega
      obtain ⟨hcov, hnd⟩ := ih _ _ (E ++ f :: fs) hstep hfuel2
      constructor
      · intro q hqr
        rcases hcov q hqr with hq | hq
        · rcases List.mem_append.mp hq with hq | hq
          · exact Or.inl hq
          · right
            simp only [ndsLoop, List.flatten_cons]
            exact List.mem_append.mpr (Or.inl hq)
        · right
          simp only [ndsLoop, List.flatten_cons]
          exact List.mem_append.mpr (Or.inr hq)
      · simp only [ndsLoop, List.flatten_cons]
        rwa [List.append_assoc] at hnd

/-! ## Properties of `nonDominatedSort` -/

theorem nds_fronts_sub (pop : List Vec) :
    ∀ G ∈ nonDominatedSort pop, ∀ i ∈ G, i ∈ List.range pop.length := by
  unfold nonDominatedSort
  exact fun G hG i hi => ndsLoop_sub pop _ _ _ [] (initInv pop) G hG i hi

theorem nds_antichain (pop : List Vec) :
    ∀ G ∈ nonDominatedSort pop, ∀ i ∈ G, ∀ j ∈ G,
      dominates (vecAt pop i) (vecAt pop j) = false := by
  unfold nonDominatedSort
  exact fun G hG i hi j hj =>
    ndsLoop_antichain pop _ _ _ [] (initInv pop) G hG i hi j hj

theorem nds_dom_earlier (pop : List Vec) (t q : ℕ)
    (hq : q ∈ (nonDominatedSort pop).getD (t + 1) []) :
    ∃ p ∈ ((nonDominatedSort pop).take (t + 1)).flatten,
      dominates (vecAt pop p) (vecAt pop q) = true := by
  unfold nonDominatedSort at hq ⊢
  obtain ⟨p, hpmem, hpdom⟩ := ndsLoop_dom_earlier pop _ _ _ [] t q (initInv pop) hq
  exact ⟨p, by simpa using hpmem, hpdom⟩

theorem nds_perm (pop : List Vec) (m : ℕ) (hdim : ∀ v ∈ pop, v.length = m) :
    ((nonDominatedSort pop).flatten).Perm (List.range pop.length) := by
  obtain ⟨hcov, hnd⟩ := ndsLoop_cover pop m hdim (pop.length + 1)
    (initCount pop) _ [] (initInv pop) (by simp)
  have hnd2 : ((nonDominatedSort pop).flatten).Nodup := by
    unfold nonDominatedSort
    simpa using hnd
  apply (List.perm_ext_iff_of_nodup hnd2 (List.nodup_range pop.length)).mpr
  intro a
  constructor
  · intro ha
    rcases List.mem_flatten.mp ha with ⟨G, hG, haG⟩
    exact nds_fronts_sub pop G hG a haG
  · intro ha
    have := hcov a ha
    rcases this with h | h
    · simp at h
    · unfold nonDominatedSort
      exact h

/-! ## Index-mapping helpers -/

theorem getD_mem_of_lt {α : Type} {l : List α} {j : ℕ} (hj : j < l.length) (d : α) :
    l.getD j d ∈ l := by
  rw [List.getD_eq_getElem?_getD, List.getElem?_eq_getElem hj]
  exact List.getElem_mem hj

theorem getD_map_lt {α β : Type} (f : α → β) {l : List α} {j : ℕ} (hj : j < l.length)
    (d : β) (d' : α) : (l.map f).getD j d = f (l.getD j d') := by
  rw [List.getD_eq_getElem?_getD, List.getD_eq_getElem?_getD,
    List.getElem?_eq_getElem (by simpa using hj), List.getElem?_eq_getElem hj]
  simp

theorem map_getD_range (l : List ℕ) :
    (List.range l.length).map (fun j => l.getD j 0) = l := by
  apply List.ext_getElem
  · simp
  · intro i h1 h2
    have hi : i < l.length := by simpa using h2
    simp only [List.getElem_map, List.getElem_range]
    rw [List.getD_eq_getElem?_getD, List.getElem?_eq_getElem hi]
    rfl

theorem mem_feasIdx {pens : List ℚ} {i : ℕ} :
    i ∈ feasIdx pens ↔ i < pens.length ∧ pens.getD i 0 ≤ 0 := by
  simp [feasIdx]

theorem mem_infeasIdx {pens : List ℚ} {i : ℕ} :
    i ∈ infeasIdx pens ↔ i < pens.length ∧ 0 < pens.getD i 0 := by
  simp [infeasIdx]

theorem feas_append_perm (pens : List ℚ) :
    (feasIdx pens ++ infeasIdx pens).Perm (List.range pens.length) := by
  unfold feasIdx infeasIdx
  have hcongr : (List.range pens.length).filter (fun i => decide (0 < pens.getD i 0))
      = (List.range pens.length).filter (fun i => !(decide (pens.getD i 0 ≤ 0))) := by
    apply List.filter_congr
    intro i _
    by_cases h : pens.getD i 0 ≤ 0
    · rw [decide_eq_false (not_lt.mpr h), decide_eq_true h]
      rfl
    · rw [decide_eq_true (not_le.mp h), decide_eq_false h]
      rfl
  rw [hcongr]
  exact List.filter_append_perm _ _

/-- The sub-population handed to the non-dominated sort for an index
subset. -/
theorem subPop_dim {objs : List Vec} {m : ℕ} (hdim : ∀ v ∈ objs, v.length = m)
    (idxs : List ℕ) (hsub : ∀ i ∈ idxs, i < objs.length) :
    ∀ v ∈ idxs.map (fun i => vecAt objs i), v.length = m := by
  intro v hv
  rcases List.mem_map.mp hv with ⟨i, hi, rfl⟩
  exact vecAt_length hdim (hsub i hi)

theorem vecAt_map_sub {objs : List Vec} {idxs : List ℕ} {j : ℕ} (hj : j < idxs.length) :
    vecAt (idxs.map (fun i => vecAt objs i)) j = vecAt objs (idxs.getD j 0) :=
  getD_map_lt _ hj [] 0

theorem mapped_fronts_mem {objs : List Vec} {idxs : List ℕ} :
    ∀ F ∈ (nonDominatedSort (idxs.map (fun i => vecAt objs i))).map
        (fun f => f.map (fun j => idxs.getD j 0)),
      ∀ i ∈ F, i ∈ idxs := by
  intro F hF i hi
  rcases List.mem_map.mp hF with ⟨f, hf, rfl⟩
  rcases List.mem_map.mp hi with ⟨j, hj, rfl⟩
  have hjr := nds_fronts_sub _ f hf j hj
  have hjlen : j < idxs.length := by simpa using List.mem_range.mp hjr
  exact getD_mem_of_lt hjlen 0

theorem mapped_fronts_antichain {objs : List Vec} {idxs : List ℕ} :
    ∀ F ∈ (nonDominatedSort (idxs.map (fun i => vecAt objs i))).map
        (fun f => f.map (fun j => idxs.getD j 0)),
      ∀ i ∈ F, ∀ j ∈ F, dominates (vecAt objs i) (vecAt objs j) = false := by
  intro F hF i hi j hj
  rcases List.mem_map.mp hF with ⟨f, hf, rfl⟩
  rcases List.mem_map.mp hi with ⟨j1, hj1, rfl⟩
  rcases List.mem_map.mp hj with ⟨j2, hj2, rfl⟩
  have h1 : j1 < idxs.length := by
    simpa using List.mem_range.mp (nds_fronts_sub _ f hf j1 hj1)
  have h2 : j2 < idxs.length := by
    simpa using List.mem_range.mp (nds_fronts_sub _ f hf j2 hj2)
  rw [← vecAt_map_sub h1, ← vecAt_map_sub h2]
  exact nds_antichain _ f hf j1 hj1 j2 hj2

theorem mapped_fronts_flatten {objs : List Vec} {idxs : List ℕ} :
    ((nonDominatedSort (idxs.map (fun i => vecAt objs i))).map
        (fun f => f.map (fun j => idxs.getD j 0))).flatten
      = ((nonDominatedSort (idxs.map (fun i => vecAt objs i))).flatten).map
          (fun j => idxs.getD j 0) :=
  (List.map_flatten _ _).symm

theorem mapped_fronts_flatten_perm {objs : List Vec} {idxs : List ℕ} {m : ℕ}
    (hdim : ∀ v ∈ objs, v.length = m) (hsub : ∀ i ∈ idxs, i < objs.length) :
    (((nonDominatedSort (idxs.map (fun i => vecAt objs i))).map
        (fun f => f.map (fun j => idxs.getD j 0))).flatten).Perm idxs := by
  rw [mapped_fronts_flatten]
  have hperm := nds_perm (idxs.map (fun i => vecAt objs i)) m (subPop_dim hdim idxs hsub)
  have hlen : (idxs.map (fun i => vecAt objs i)).length = idxs.length := List.length_map _ _
  rw [hlen] at hperm
  have := hperm.map (fun j => idxs.getD j 0)
  rw [map_getD_range idxs] at this
  exact this

/-! ## buildOrder -/

theorem buildOrder_mem (pop : List Vec) : ∀ (fronts : List (List ℕ)) (rk : ℕ)
    (e : OrderEntry), e ∈ buildOrder pop rk fronts →
    ∃ t, t < fronts.length ∧ e.rank = rk + t ∧ e.idx ∈ fronts.getD t [] := by
  intro fronts
  induction fronts with
  | nil =>
    intro rk e he
    simp [buildOrder] at he
  | cons f rest ih =>
    intro rk e he
    simp only [buildOrder] at he
    rcases List.mem_append.mp he with he | he
    · rcases List.mem_map.mp he with ⟨i, hi, rfl⟩
      exact ⟨0, by simp, by simp, by simpa using hi⟩
    · obtain ⟨t, ht, hrk, hidx⟩ := ih (rk + 1) e he
      exact ⟨t + 1, by simpa using ht, by omega, by simpa using hidx⟩

theorem buildOrder_exists (pop : List Vec) : ∀ (fronts : List (List ℕ)) (rk t i : ℕ),
    t < fronts.length → i ∈ fronts.getD t [] →
    ∃ e ∈ buildOrder pop rk fronts, e.idx = i ∧ e.rank = rk + t := by
  intro fronts
  induction fronts with
  | nil =>
    intro rk t i ht
    simp at ht
  | cons f rest ih =>
    intro rk t i ht hi
    cases t with
    | zero =>
      refine ⟨⟨i, crowdingDistance f pop i, rk⟩, ?_, rfl, by simp⟩
      simp only [buildOrder]
      apply List.mem_append.mpr
      left
      exact List.mem_map.mpr ⟨i, by simpa using hi, rfl⟩
    | succ t2 =>
      obtain ⟨e, he, hidx, hrk⟩ := ih (rk + 1) t2 i (by simpa using ht) (by simpa using hi)
      refine ⟨e, ?_, hidx, by omega⟩
      simp only [buildOrder]
      exact List.mem_append.mpr (Or.inr he)

theorem buildOrder_map_idx (pop : List Vec) : ∀ (fronts : List (List ℕ)) (rk : ℕ),
    (buildOrder pop rk fronts).map OrderEntry.idx = fronts.flatten := by
  intro fronts
  induction fronts with
  | nil => intro rk; rfl
  | cons f rest ih =>
    intro rk
    simp only [buildOrder, List.map_append, List.map_map, List.flatten_cons, ih]
    congr 1
    show List.map id f = f
    exact List.map_id f

/-! ## entryLE is a total preorder -/

theorem entryLE_iff {a b : OrderEntry} :
    entryLE a b = true ↔ a.rank < b.rank ∨ (a.rank = b.rank ∧ b.crowd ≤ a.crowd) := by
  simp [entryLE]

theorem entryLE_total (a b : OrderEntry) : entryLE a b = true ∨ entryLE b a = true := by
  rw [entryLE_iff, entryLE_iff]
  rcases lt_trichotomy a.rank b.rank with h | h | h
  · exact Or.inl (Or.inl h)
  · rcases le_total a.crowd b.crowd with hc | hc
    · exact Or.inr (Or.inr ⟨h.symm, hc⟩)
    · exact Or.inl (Or.inr ⟨h, hc⟩)
  · exact Or.inr (Or.inl h)

theorem entryLE_trans (a b c : OrderEntry) (h1 : entryLE a b = true)
    (h2 : entryLE b c = true) : entryLE a c = true := by
  rw [entryLE_iff] at h1 h2 ⊢
  rcases h1 with h1 | ⟨h1, h1c⟩
  · rcases h2 with h2 | ⟨h2, _⟩
    · exact Or.inl (by omega)
    · exact Or.inl (by omega)
  · rcases h2 with h2 | ⟨h2, h2c⟩
    · exact Or.inl (by omega)
    · exact Or.inr ⟨by omega, le_trans h2c h1c⟩

/-! ## nsgaOrder structure -/

theorem nsgaOrder_perm (objs : List Vec) (pens : List ℚ) :
    (nsgaOrder objs pens).Perm (buildOrder objs 1 (nsgaFronts objs pens)) :=
  ssort_perm entryLE _

theorem nsgaOrder_map_idx_perm (objs : List Vec) (pens : List ℚ) (m : ℕ)
    (hlen : pens.length = objs.length) (hdim : ∀ v ∈ objs, v.length = m) :
    ((nsgaOrder objs pens).map OrderEntry.idx).Perm (List.range objs.length) := by
  have h1 : ((nsgaOrder objs pens).map OrderEntry.idx).Perm
      ((buildOrder objs 1 (nsgaFronts objs pens)).map OrderEntry.idx) :=
    (nsgaOrder_perm objs pens).map _
  rw [buildOrder_map_idx] at h1
  have hfeas : ∀ i ∈ feasIdx pens, i < objs.length := fun i hi => by
    have := (mem_feasIdx.mp hi).1
    omega
  have hinfeas : ∀ i ∈ infeasIdx pens, i < objs.length := fun i hi => by
    have := (mem_infeasIdx.mp hi).1
    omega
  have h2 : ((nsgaFronts objs pens).flatten).Perm (List.range objs.length) := by
    unfold nsgaFronts
    simp only [List.flatten_append]
    have hA := @mapped_fronts_flatten_perm objs (feasIdx pens) m hdim hfeas
    have hB := @mapped_fronts_flatten_perm objs (infeasIdx pens) m hdim hinfeas
    have hAB := hA.append hB
    refine hAB.trans ?_
    rw [← hlen]
    exact feas_append_perm pens
  exact h1.trans h2

theorem nsgaFronts_flatten_perm (objs : List Vec) (pens : List ℚ) (m : ℕ)
    (hlen : pens.length = objs.length) (hdim : ∀ v ∈ objs, v.length = m) :
    ((nsgaFronts objs pens).flatten).Perm (List.range objs.length) := by
  have hfeas : ∀ i ∈ feasIdx pens, i < objs.length := fun i hi => by
    have := (mem_feasIdx.mp hi).1
    omega
  have hinfeas : ∀ i ∈ infeasIdx pens, i < objs.length := fun i hi => by
    have := (mem_infeasIdx.mp hi).1
    omega
  unfold nsgaFronts
  simp only [List.flatten_append]
  have hA := @mapped_fronts_flatten_perm objs (feasIdx pens) m hdim hfeas
  have hB := @mapped_fronts_flatten_perm objs (infeasIdx pens) m hdim hinfeas
  refine (hA.append hB).trans ?_
  rw [← hlen]
  exact feas_append_perm pens

/-! ## Feasibility determines the rank segment -/

/-- Entries whose index carries no penalty sit in the feasible block of
fronts; positive-penalty entries sit strictly after it. -/
theorem buildOrder_rank_segment (objs : List Vec) (pens : List ℚ) (e : OrderEntry)
    (he : e ∈ buildOrder objs 1 (nsgaFronts objs pens)) :
    (pens.getD e.idx 0 ≤ 0 →
      e.rank ≤ (nonDominatedSort ((feasIdx pens).map (fun i => vecAt objs i))).length)
    ∧ (0 < pens.getD e.idx 0 →
      (nonDominatedSort ((feasIdx pens).map (fun i => vecAt objs i))).length < e.rank) := by
  obtain ⟨t, ht, hrk, hidx⟩ := buildOrder_mem objs _ 1 e he
  have hsplit : nsgaFronts objs pens
      = (nonDominatedSort ((feasIdx pens).map (fun i => vecAt objs i))).map
          (fun f => f.map (fun j => (feasIdx pens).getD j 0))
        ++ (nonDominatedSort ((infeasIdx pens).map (fun i => vecAt objs i))).map
          (fun f => f.map (fun j => (infeasIdx pens).getD j 0)) := rfl
  set A := (nonDominatedSort ((feasIdx pens).map (fun i => vecAt objs i))).map
      (fun f => f.map (fun j => (feasIdx pens).getD j 0)) with hA
  set B := (nonDominatedSort ((infeasIdx pens).map (fun i => vecAt objs i))).map
      (fun f => f.map (fun j => (infeasIdx pens).getD j 0)) with hB
  rw [hsplit] at ht hidx
  have hlenA : A.length = (nonDominatedSort ((feasIdx pens).map (fun i => vecAt objs i))).length :=
    List.length_map _ _
  by_cases htA : t < A.length
  · have hgd : (A ++ B).getD t [] = A.getD t [] := List.getD_append _ _ _ _ htA
    rw [hgd] at hidx
    have hFmem : A.getD t [] ∈ A := getD_mem_of_lt htA []
    have hfeasmem : e.idx ∈ feasIdx pens := by
      rw [hA] at hFmem
      exact mapped_fronts_mem _ hFmem e.idx hidx
    have hle0 := (mem_feasIdx.mp hfeasmem).2
    constructor
    · intro _
      omega
    · intro hpos
      exact absurd hle0 (not_le.mpr hpos)
  · have hlenAB : (A ++ B).length = A.length + B.length := List.length_append _ _
    have ht2 : t - A.length < B.length := by omega
    have hgd : (A ++ B).getD t [] = B.getD (t - A.length) [] :=
      List.getD_append_right _ _ _ _ (by omega)
    rw [hgd] at hidx
    have hFmem : B.getD (t - A.length) [] ∈ B := getD_mem_of_lt ht2 []
    have hinfmem : e.idx ∈ infeasIdx pens := by
      rw [hB] at hFmem
      exact mapped_fronts_mem _ hFmem e.idx hidx
    have hpos0 := (mem_infeasIdx.mp hinfmem).2
    constructor
    · intro hle
      exact absurd hle (not_le.mpr hpos0)
    · intro _
      omega

/-! ## rankOf: well-definedness -/

theorem filter_idx_eq {l : List OrderEntry} {e : OrderEntry}
    (hnd : (l.map OrderEntry.idx).Nodup) (he : e ∈ l) :
    l.filter (fun x => decide (x.idx = e.idx)) = [e] := by
  induction l with
  | nil => simp at he
  | cons x xs ih =>
    rw [List.map_cons, List.nodup_cons] at hnd
    rcases List.mem_cons.mp he with rfl | he2
    · have hnil : xs.filter (fun y => decide (y.idx = e.idx)) = [] := by
        apply List.filter_eq_nil_iff.mpr
        intro y hy
        simp only [decide_eq_true_eq]
        intro heq
        exact hnd.1 (heq ▸ List.mem_map_of_mem OrderEntry.idx hy)
      rw [List.filter_cons]
      simp [hnil]
    · have hxne : ¬ (x.idx = e.idx) := by
        intro heq
        exact hnd.1 (heq ▸ List.mem_map_of_mem OrderEntry.idx he2)
      rw [List.filter_cons]
      simp [hxne, ih hnd.2 he2]

theorem nsgaOrder_idx_nodup (objs : List Vec) (pens : List ℚ) (m : ℕ)
    (hlen : pens.length = objs.length) (hdim : ∀ v ∈ objs, v.length = m) :
    ((nsgaOrder objs pens).map OrderEntry.idx).Nodup :=
  (nsgaOrder_map_idx_perm objs pens m hlen hdim).nodup_iff.mpr
    (List.nodup_range objs.length)

theorem rankOf_eq (objs : List Vec) (pens : List ℚ) (m : ℕ)
    (hlen : pens.length = objs.length) (hdim : ∀ v ∈ objs, v.length = m)
    (e : OrderEntry) (he : e ∈ nsgaOrder objs pens) :
    rankOf objs pens e.idx = e.rank := by
  unfold rankOf
  rw [filter_idx_eq (nsgaOrder_idx_nodup objs pens m hlen hdim) he]
  rfl

theorem nsgaOrder_entry_exists (objs : List Vec) (pens : List ℚ) (m : ℕ)
    (hlen : pens.length = objs.length) (hdim : ∀ v ∈ objs, v.length = m)
    (i : ℕ) (hi : i < pens.length) :
    ∃ e ∈ nsgaOrder objs pens, e.idx = i := by
  have hperm := nsgaOrder_map_idx_perm objs pens m hlen hdim
  have hmem : i ∈ (nsgaOrder objs pens).map OrderEntry.idx :=
    hperm.mem_iff.mpr (List.mem_range.mpr (by omega))
  rcases List.mem_map.mp hmem with ⟨e, he, hei⟩
  exact ⟨e, he, hei⟩

/-! ## Crowding distance: infinity at the boundaries -/

theorem getLastD_mem {α : Type} : ∀ (l : List α) (d : α), l ≠ [] → l.getLastD d ∈ l := by
  intro l
  induction l with
  | nil => intro d h; cases h rfl
  | cons a t ih =>
    intro d _
    cases ht : t with
    | nil => simp [ht]
    | cons b s =>
      rw [List.getLastD_cons]
      subst ht
      exact List.mem_cons_of_mem a (ih a (by simp))

theorem pairwise_le_getLastD {α : Type} (le : α → α → Bool)
    (htot : ∀ a b, le a b = true ∨ le b a = true) :
    ∀ (l : List α) (d : α), l.Pairwise (fun a b => le a b = true) →
      ∀ j ∈ l, le j (l.getLastD d) = true := by
  intro l
  induction l with
  | nil => intro d _ j hj; simp at hj
  | cons x xs ih =>
    intro d hl j hj
    rcases List.pairwise_cons.mp hl with ⟨hx, hxs⟩
    rw [List.getLastD_cons]
    cases hxs0 : xs with
    | nil =>
      subst hxs0
      have hjx : j = x := by simpa using hj
      subst hjx
      rcases htot j j with h | h <;> simpa using h
    | cons b s =>
      subst hxs0
      rcases List.mem_cons.mp hj with rfl | hj2
      · exact hx _ (getLastD_mem _ j (by simp))
      · exact ih x hxs j hj2

/-- Adding interior contributions never clears an infinite entry. -/
theorem foldl_addUpdate_top (val : ((ℕ × ℕ) × ℕ) → ℚ) :
    ∀ (trips : List ((ℕ × ℕ) × ℕ)) (d : ℕ → WithTop ℚ) (i : ℕ), d i = ⊤ →
      (trips.foldl
        (fun dd t => fun j => if j = t.1.2 then dd t.1.2 + (val t : WithTop ℚ) else dd j) d) i
        = ⊤ := by
  intro trips
  induction trips with
  | nil => intro d i hd; exact hd
  | cons t ts ih =>
    intro d i hd
    apply ih
    by_cases h : i = t.1.2
    · subst h
      simp only [if_pos rfl]
      rw [hd]
      exact WithTop.top_add _
    · simp only [if_neg h]
      exact hd

theorem keyLe_total (pop : List Vec) (k : ℕ) :
    ∀ a b, keyLe pop k a b = true ∨ keyLe pop k b a = true := by
  intro a b
  unfold keyLe
  rcases le_total (objVal pop a k) (objVal pop b k) with h | h
  · exact Or.inl (by simpa using h)
  · exact Or.inr (by simpa using h)

theorem keyLe_trans (pop : List Vec) (k : ℕ) :
    ∀ a b c, keyLe pop k a b = true → keyLe pop k b c = true → keyLe pop k a c = true := by
  intro a b c h1 h2
  unfold keyLe at h1 h2 ⊢
  simp only [decide_eq_true_eq] at h1 h2 ⊢
  exact le_trans h1 h2

/-- One dimension's pass marks both ends of its sorted order with `∞`,
whatever the distances were before. -/
theorem crowdStepDim_boundary (pop : List Vec) (front : List ℕ) (d : ℕ → WithTop ℚ)
    (k : ℕ) (hne : front ≠ []) :
    crowdStepDim pop front d k ((ssort (keyLe pop k) front).headD 0) = ⊤
    ∧ crowdStepDim pop front d k ((ssort (keyLe pop k) front).getLastD 0) = ⊤ := by
  have hsne : ssort (keyLe pop k) front ≠ [] := by
    intro h
    apply hne
    have hlen := ssort_length (keyLe pop k) front
    rw [h] at hlen
    exact List.length_eq_zero.mp hlen.symm
  unfold crowdStepDim
  rw [if_neg hsne]
  by_cases hsp : objVal pop ((ssort (keyLe pop k) front).getLastD 0) k
      - objVal pop ((ssort (keyLe pop k) front).headD 0) k = 0
  · rw [if_pos hsp]
    constructor
    · simp only []
      by_cases h0 : (ssort (keyLe pop k) front).headD 0
          = (ssort (keyLe pop k) front).getLastD 0
      · rw [if_pos h0]
      · rw [if_neg h0]
        simp
    · simp only []
      simp
  · rw [if_neg hsp]
    constructor
    · apply foldl_addUpdate_top
      simp only []
      by_cases h0 : (ssort (keyLe pop k) front).headD 0
          = (ssort (keyLe pop k) front).getLastD 0
      · rw [if_pos h0]
      · rw [if_neg h0]
        simp
    · apply foldl_addUpdate_top
      simp only []
      simp

/-- `∞` entries survive every later dimension. -/
theorem crowdStepDim_top (pop : List Vec) (front : List ℕ) (d : ℕ → WithTop ℚ)
    (k i : ℕ) (hd : d i = ⊤) : crowdStepDim pop front d k i = ⊤ := by
  unfold crowdStepDim
  by_cases hs0 : ssort (keyLe pop k) front = []
  · rw [if_pos hs0]
    exact hd
  · rw [if_neg hs0]
    have hd2 : (fun j => if j = (ssort (keyLe pop k) front).getLastD 0 then (⊤ : WithTop ℚ)
        else if j = (ssort (keyLe pop k) front).headD 0 then ⊤ else d j) i = ⊤ := by
      simp only []
      by_cases h1 : i = (ssort (keyLe pop k) front).getLastD 0
      · rw [if_pos h1]
      · rw [if_neg h1]
        by_cases h2 : i = (ssort (keyLe pop k) front).headD 0
        · rw [if_pos h2]
        · rw [if_neg h2]
          exact hd
    by_cases hsp : objVal pop ((ssort (keyLe pop k) front).getLastD 0) k
        - objVal pop ((ssort (keyLe pop k) front).headD 0) k = 0
    · rw [if_pos hsp]
      exact hd2
    · rw [if_neg hsp]
      exact foldl_addUpdate_top _ _ _ i hd2

theorem foldl_crowd_top (pop : List Vec) (front : List ℕ) :
    ∀ (dims : List ℕ) (d : ℕ → WithTop ℚ) (i : ℕ), d i = ⊤ →
      (dims.foldl (crowdStepDim pop front) d) i = ⊤ := by
  intro dims
  induction dims with
  | nil => intro d i hd; exact hd
  | cons k ks ih =>
    intro d i hd
    exact ih _ i (crowdStepDim_top pop front d k i hd)

theorem foldl_crowd_mem_top (pop : List Vec) (front : List ℕ) (hne : front ≠ []) (k : ℕ) :
    ∀ (dims : List ℕ) (d : ℕ → WithTop ℚ), k ∈ dims →
      (dims.foldl (crowdStepDim pop front) d) ((ssort (keyLe pop k) front).headD 0) = ⊤
      ∧ (dims.foldl (crowdStepDim pop front) d) ((ssort (keyLe pop k) front).getLastD 0) = ⊤ := by
  intro dims
  induction dims with
  | nil => intro d hk; simp at hk
  | cons k2 ks ih =>
    intro d hk
    rcases List.mem_cons.mp hk with rfl | hk2
    · obtain ⟨h1, h2⟩ := crowdStepDim_boundary pop front d k hne
      exact ⟨foldl_crowd_top pop front ks _ _ h1, foldl_crowd_top pop front ks _ _ h2⟩
    · exact ih _ hk2

/-- The boundary members of every front (per dimension, in sorted order)
carry infinite crowding distance. -/
theorem crowdingDistance_boundary_top (pop : List Vec) (front : List ℕ) (k : ℕ)
    (hk : k < (vecAt pop 0).length) (hne : front ≠ []) :
    crowdingDistance front pop ((ssort (keyLe pop k) front).headD 0) = ⊤
    ∧ crowdingDistance front pop ((ssort (keyLe pop k) front).getLastD 0) = ⊤ := by
  unfold crowdingDistance
  exact foldl_crowd_mem_top pop front hne k _ _ (List.mem_range.mpr hk)

/-- The head of the per-dimension sort belongs to the front and attains the
minimum of that dimension on the front. -/
theorem ssort_head_min (pop : List Vec) (k : ℕ) (front : List ℕ) (hne : front ≠ []) :
    (ssort (keyLe pop k) front).headD 0 ∈ front
    ∧ ∀ j ∈ front, objVal pop ((ssort (keyLe pop k) front).headD 0) k ≤ objVal pop j k := by
  have hsne : ssort (keyLe pop k) front ≠ [] := by
    intro h
    apply hne
    have hlen := ssort_length (keyLe pop k) front
    rw [h] at hlen
    exact List.length_eq_zero.mp hlen.symm
  have hpw := ssort_pairwise (keyLe pop k) (keyLe_total pop k) (keyLe_trans pop k) front
  cases hs : ssort (keyLe pop k) front with
  | nil => exact absurd hs hsne
  | cons s0 rest =>
    rw [hs] at hpw
    rcases List.pairwise_cons.mp hpw with ⟨hhead, _⟩
    constructor
    · have : s0 ∈ ssort (keyLe pop k) front := by simp [hs]
      simpa using (ssort_mem (keyLe pop k) front s0).mp this
    · intro j hj
      have hj2 : j ∈ s0 :: rest := by
        rw [← hs]
        exact (ssort_mem (keyLe pop k) front j).mpr hj
      simp only [List.headD_cons]
      rcases List.mem_cons.mp hj2 with rfl | hj3
      · exact le_refl _
      · simpa [keyLe] using hhead j hj3

/-- The last element of the per-dimension sort belongs to the front and
attains the maximum of that dimension on the front. -/
theorem ssort_last_max (pop : List Vec) (k : ℕ) (front : List ℕ) (hne : front ≠ []) :
    (ssort (keyLe pop k) front).getLastD 0 ∈ front
    ∧ ∀ j ∈ front, objVal pop j k ≤ objVal pop ((ssort (keyLe pop k) front).getLastD 0) k := by
  have hsne : ssort (keyLe pop k) front ≠ [] := by
    intro h
    apply hne
    have hlen := ssort_length (keyLe pop k) front
    rw [h] at hlen
    exact List.length_eq_zero.mp hlen.symm
  have hpw := ssort_pairwise (keyLe pop k) (keyLe_total pop k) (keyLe_trans pop k) front
  constructor
  · have := getLastD_mem (ssort (keyLe pop k) front) 0 hsne
    exact (ssort_mem (keyLe pop k) front _).mp this
  · intro j hj
    have hj2 : j ∈ ssort (keyLe pop k) front := (ssort_mem (keyLe pop k) front j).mpr hj
    have := pairwise_le_getLastD (keyLe pop k) (keyLe_total pop k)
      (ssort (keyLe pop k) front) 0 hpw j hj2
    simpa [keyLe] using this

/-! ## Degenerate dimensions -/

theorem ssort_const_keys (pop : List Vec) (k : ℕ) (front : List ℕ)
    (hconst : ∀ i ∈ front, ∀ j ∈ front, objVal pop i k = objVal pop j k) :
    ssort (keyLe pop k) front = front := by
  apply ssort_of_all
  intro a ha b hb
  unfold keyLe
  rw [hconst a ha b hb]
  simp

/-- On a column that is constant over the front, a dimension pass only
writes `∞` at the front's first and last members (stable sort order equals
front order) and leaves everyone else untouched. -/
theorem crowdStepDim_const (pop : List Vec) (k : ℕ) (f0 : ℕ) (rest : List ℕ)
    (d : ℕ → WithTop ℚ)
    (hconst : ∀ i ∈ f0 :: rest, ∀ j ∈ f0 :: rest, objVal pop i k = objVal pop j k) :
    ∀ i, crowdStepDim pop (f0 :: rest) d k i
      = if i = (f0 :: rest).getLastD 0 then ⊤ else if i = f0 then ⊤ else d i := by
  intro i
  unfold crowdStepDim
  rw [ssort_const_keys pop k (f0 :: rest) hconst]
  rw [if_neg (List.cons_ne_nil f0 rest)]
  have hspan : objVal pop ((f0 :: rest).getLastD 0) k
      - objVal pop ((f0 :: rest).headD 0) k = 0 := by
    rw [List.headD_cons,
      hconst _ (getLastD_mem _ 0 (by simp)) f0 (List.mem_cons_self f0 rest)]
    ring
  rw [if_pos hspan]
  simp only [List.headD_cons]

/-! ## The single-candidate pipeline -/

theorem dominates_nil_left (b : Vec) : dominates [] b = false := rfl

theorem range_one : List.range 1 = [0] := rfl

theorem domSet_singleton (v : Vec) (p : ℕ) : domSet [v] p = [] := by
  unfold domSet
  simp only [List.length_cons, List.length_nil, Nat.zero_add]
  rw [range_one, List.filter_cons, List.filter_nil]
  by_cases hp : p = 0
  · subst hp
    simp
  · have hout : vecAt [v] p = [] := vecAt_outside (by
      simp only [List.mem_range, List.length_cons, List.length_nil]
      omega)
    rw [hout, dominates_nil_left]
    simp

theorem domList_singleton (v : Vec) (q : ℕ) : domList [v] q = [] := by
  unfold domList
  simp only [List.length_cons, List.length_nil, Nat.zero_add]
  rw [range_one, List.filter_cons, List.filter_nil]
  by_cases hq : q = 0
  · subst hq
    simp
  · have hout : vecAt [v] q = [] := vecAt_outside (by
      simp only [List.mem_range, List.length_cons, List.length_nil]
      omega)
    rw [hout, dominates_nil_right]
    simp

theorem nds_empty : nonDominatedSort ([] : List Vec) = [] := by
  unfold nonDominatedSort
  simp [ndsLoop]

theorem nds_singleton (v : Vec) : nonDominatedSort [v] = [[0]] := by
  have hinit : ∀ q, initCount [v] q = 0 := by
    intro q
    unfold initCount
    rw [domList_singleton]
    rfl
  unfold nonDominatedSort
  have hfront : (List.range ([v].length)).filter (fun i => decide (initCount [v] i = 0))
      = [0] := by
    show (List.range 1).filter (fun i => decide (initCount [v] i = 0)) = [0]
    rw [range_one, List.filter_cons, List.filter_nil]
    simp [hinit]
  rw [hfront]
  show ndsLoop [v] 2 (initCount [v]) [0] = [[0]]
  have hstep : stepFront [v] (initCount [v]) [0] = (initCount [v], []) := by
    unfold stepFront
    rw [List.foldl_cons, domSet_singleton, List.foldl_nil, List.foldl_nil]
  simp only [ndsLoop, hstep]

theorem crowd_singleton (v : Vec) (hv : v ≠ []) : crowdingDistance [0] [v] 0 = ⊤ := by
  have h0 : (0 : ℕ) ∈ List.range (vecAt [v] 0).length := by
    have hv0 : vecAt [v] 0 = v := rfl
    rw [hv0]
    exact List.mem_range.mpr (List.length_pos.mpr hv)
  have hb := foldl_crowd_mem_top [v] [0] (by simp) 0
    (List.range (vecAt [v] 0).length) (fun _ => (0 : WithTop ℚ)) h0
  have hss : ssort (keyLe [v] 0) [0] = [0] := rfl
  unfold crowdingDistance
  have hh := hb.1
  rw [hss] at hh
  simpa using hh

theorem nsgaFronts_singleton (v : Vec) (pen : ℚ) : nsgaFronts [v] [pen] = [[0]] := by
  unfold nsgaFronts feasIdx infeasIdx
  by_cases hp : pen ≤ 0
  · have h1 : (List.range ([pen] : List ℚ).length).filter
        (fun i => decide (([pen] : List ℚ).getD i 0 ≤ 0)) = [0] := by
      show (List.range 1).filter (fun i => decide (([pen] : List ℚ).getD i 0 ≤ 0)) = [0]
      rw [range_one, List.filter_cons, List.filter_nil]
      have hg : ([pen] : List ℚ).getD 0 0 = pen := rfl
      rw [hg, decide_eq_true hp]
      rfl
    have h2 : (List.range ([pen] : List ℚ).length).filter
        (fun i => decide (0 < ([pen] : List ℚ).getD i 0)) = [] := by
      show (List.range 1).filter (fun i => decide (0 < ([pen] : List ℚ).getD i 0)) = []
      rw [range_one, List.filter_cons, List.filter_nil]
      have hg : ([pen] : List ℚ).getD 0 0 = pen := rfl
      rw [hg, decide_eq_false (not_lt.mpr hp)]
      rfl
    rw [h1, h2]
    simp only [List.map_cons, List.map_nil]
    have hsub : vecAt [v] 0 = v := rfl
    rw [hsub, nds_singleton, nds_empty]
    rfl
  · have h1 : (List.range ([pen] : List ℚ).length).filter
        (fun i => decide (([pen] : List ℚ).getD i 0 ≤ 0)) = [] := by
      show (List.range 1).filter (fun i => decide (([pen] : List ℚ).getD i 0 ≤ 0)) = []
      rw [range_one, List.filter_cons, List.filter_nil]
      have hg : ([pen] : List ℚ).getD 0 0 = pen := rfl
      rw [hg, decide_eq_false hp]
      rfl
    have h2 : (List.range ([pen] : List ℚ).length).filter
        (fun i => decide (0 < ([pen] : List ℚ).getD i 0)) = [0] := by
      show (List.range 1).filter (fun i => decide (0 < ([pen] : List ℚ).getD i 0)) = [0]
      rw [range_one, List.filter_cons, List.filter_nil]
      have hg : ([pen] : List ℚ).getD 0 0 = pen := rfl
      rw [hg, decide_eq_true (not_le.mp hp)]
      rfl
    rw [h1, h2]
    simp only [List.map_cons, List.map_nil]
    have hsub : vecAt [v] 0 = v := rfl
    rw [hsub, nds_singleton, nds_empty]
    rfl

theorem nsgaOrder_singleton (v : Vec) (pen : ℚ) (hv : v ≠ []) :
    nsgaOrder [v] [pen] = [⟨0, ⊤, 1⟩] := by
  unfold nsgaOrder
  rw [nsgaFronts_singleton v pen]
  have hb : buildOrder [v] 1 [[0]] = [⟨0, crowdingDistance [0] [v] 0, 1⟩] := by
    simp [buildOrder]
  rw [hb, crowd_singleton v hv]
  rfl

/-! ## Endpoint plumbing -/

theorem bind_ok (x : α) (f : α → Except String β) : (Except.ok x >>= f) = f x := rfl

theorem bind_error (e : String) (f : α → Except String β) :
    ((Except.error e : Except String α) >>= f) = Except.error e := rfl

theorem exceptMap_ok (f : α → Except String β) : ∀ (l : List α),
    (∀ x ∈ l, ∃ y, f x = .ok y) →
    ∃ ys, exceptMap f l = .ok ys ∧ ys.length = l.length
      ∧ ∀ y ∈ ys, ∃ x ∈ l, f x = .ok y := by
  intro l
  induction l with
  | nil => intro _; exact ⟨[], rfl, rfl, by simp⟩
  | cons x xs ih =>
    intro h
    obtain ⟨y, hy⟩ := h x (List.mem_cons_self x xs)
    obtain ⟨ys, hys, hlen, hmem⟩ := ih (fun a ha => h a (List.mem_cons_of_mem x ha))
    refine ⟨y :: ys, ?_, by simp [hlen], ?_⟩
    · unfold exceptMap
      rw [hy, bind_ok, hys, bind_ok]
    · intro z hz
      rcases List.mem_cons.mp hz with rfl | hz2
      · exact ⟨x, List.mem_cons_self x xs, hy⟩
      · obtain ⟨a, ha, hfa⟩ := hmem z hz2
        exact ⟨a, List.mem_cons_of_mem x ha, hfa⟩

theorem mileageVal_ok {r : Row}
    (h : r.mileage = none ∨ ∃ q, r.mileage = some (JVal.jnum q)) :
    ∃ x, mileageVal r = .ok x := by
  rcases h with h | ⟨q, h⟩
  · exact ⟨0, by simp [mileageVal, h]⟩
  · by_cases hq : q = 0
    · refine ⟨0, ?_⟩
      subst hq
      simp [mileageVal, h, pyTruthy]
    · refine ⟨q, ?_⟩
      simp [mileageVal, h, pyTruthy, hq, pyFloat]

theorem mapRow_ok (r : Row) (avg : ℚ) (h : ∃ x, mileageVal r = .ok x) :
    ∃ m, mapRowToObjectives r avg = .ok m ∧ m.objectives.length = 6 := by
  obtain ⟨x, hx⟩ := h
  unfold mapRowToObjectives
  rw [hx, bind_ok]
  exact ⟨_, rfl, rfl⟩

theorem applyWeights_length (objs : List Vec) (w : Weights) :
    (applyWeights objs w).length = objs.length := by
  unfold applyWeights
  simp

theorem applyWeights_dim (objs : List Vec) (w : Weights) :
    ∀ u ∈ applyWeights objs w, u.length = 6 := by
  intro u hu
  unfold applyWeights at hu
  rcases List.mem_map.mp hu with ⟨i, _, rfl⟩
  rw [List.length_map, List.length_zip, List.length_map, List.length_range]
  rfl

theorem nsgaOrder_length (objs : List Vec) (pens : List ℚ) (m : ℕ)
    (hlen : pens.length = objs.length) (hdim : ∀ v ∈ objs, v.length = m) :
    (nsgaOrder objs pens).length = objs.length := by
  have h := (nsgaOrder_map_idx_perm objs pens m hlen hdim).length_eq
  simpa using h

/-- The endpoint completes whenever every mileage is absent or numeric, and
emits exactly one result per input row. -/
theorem rankEndpoint_ok (rows : List Row) (w : Weights)
    (h : ∀ r ∈ rows, r.mileage = none ∨ ∃ q, r.mileage = some (JVal.jnum q)) :
    ∃ out, rankEndpoint rows w = .ok out ∧ out.length = rows.length := by
  obtain ⟨ms, hms, hmslen, _⟩ :=
    exceptMap_ok mileageVal rows (fun r hr => mileageVal_ok (h r hr))
  unfold rankEndpoint
  rw [hms, bind_ok]
  dsimp only
  obtain ⟨mapped, hmap, hmaplen, hmapmem⟩ :=
    exceptMap_ok (fun r => mapRowToObjectives r
      (ms.sum / (if rows.length = 0 then 1 else (rows.length : ℚ)))) rows
      (fun r hr => by
        obtain ⟨m2, hm2, _⟩ := mapRow_ok r
          (ms.sum / (if rows.length = 0 then 1 else (rows.length : ℚ)))
          (mileageVal_ok (h r hr))
        exact ⟨m2, hm2⟩)
  rw [hmap, bind_ok]
  refine ⟨_, rfl, ?_⟩
  rw [List.length_map]
  have hdim : ∀ v ∈ applyWeights (mapped.map (fun m => m.objectives)) w, v.length = 6 :=
    applyWeights_dim _ w
  have hlen2 : (mapped.map (fun m => m.penalty)).length
      = (applyWeights (mapped.map (fun m => m.objectives)) w).length := by
    rw [applyWeights_length, List.length_map, List.length_map]
  rw [nsgaOrder_length _ _ 6 hlen2 hdim, applyWeights_length, List.length_map, hmaplen]

/-! ## The mapper's alert flags in terms of the raw row -/

/-- The three alert fields that feed the induction category, extracted from
a successful objective mapping. -/
theorem mapRow_flags (row : Row) (avg : ℚ) (m : MappedRow)
    (h : mapRowToObjectives row avg = .ok m) :
    m.fitness_invalid = (pyIn "invalid" (normText (normalizeStatuses row).fitness)
        || pyIn "expired" (normText (normalizeStatuses row).fitness)
        || pyIn "revoked" (normText (normalizeStatuses row).fitness))
      ∧ m.cleaning_pending = pyIn "pending" (normText (normalizeStatuses row).cleaning)
      ∧ m.cleaning_partial = pyIn "partial" (normText (normalizeStatuses row).cleaning) := by
  unfold mapRowToObjectives at h
  cases hm : mileageVal row with
  | error e =>
    rw [hm, bind_error] at h
    cases h
  | ok x =>
    rw [hm, bind_ok] at h
    injection h with h2
    subst h2
    refine ⟨?_, rfl, rfl⟩
    dsimp only
    cases hB : (pyIn "invalid" (normText (normalizeStatuses row).fitness)
        || pyIn "expired" (normText (normalizeStatuses row).fitness)
        || pyIn "revoked" (normText (normalizeStatuses row).fitness))
    · norm_num
    · norm_num

/-- Reading one CSV record that lacks the `train_id` column aborts the read
with the `ValueError` naming that column (the identifier is looked up
first, so no other field is consulted). -/
theorem readCsv_missing_id (rd : CsvRow) (h : rd.lookup "train_id" = none) :
    readCsv [rd] = .error "Missing required CSV column: train_id" := by
  unfold readCsv
  show exceptMap readCsvRow [rd] = _
  have hrow : readCsvRow rd = .error "Missing required CSV column: train_id" := by
    unfold readCsvRow lookupCol
    rw [h]
    rfl
  unfold exceptMap
  rw [hrow]
  rfl

/-! ## Degenerate columns collapse to zero under `_norm` -/

theorem foldl_min_const (v : ℚ) : ∀ vs : List ℚ, (∀ b ∈ vs, b = v) → vs.foldl min v = v := by
  intro vs
  induction vs with
  | nil => intro _; rfl
  | cons w ws ih =>
    intro h
    rw [List.foldl_cons, h w (List.mem_cons_self w ws), min_self]
    exact ih (fun b hb => h b (List.mem_cons_of_mem w hb))

theorem foldl_max_const (v : ℚ) : ∀ vs : List ℚ, (∀ b ∈ vs, b = v) → vs.foldl max v = v := by
  intro vs
  induction vs with
  | nil => intro _; rfl
  | cons w ws ih =>
    intro h
    rw [List.foldl_cons, h w (List.mem_cons_self w ws), max_self]
    exact ih (fun b hb => h b (List.mem_cons_of_mem w hb))

theorem normCol_const (vals : List ℚ) (h : ∀ a ∈ vals, ∀ b ∈ vals, a = b) :
    normCol vals = vals.map (fun _ => 0) := by
  cases vals with
  | nil => rfl
  | cons v vs =>
    have hmin : vs.foldl min v = v :=
      foldl_min_const v vs (fun b hb => h b (List.mem_cons_of_mem v hb) v (by simp))
    have hmax : vs.foldl max v = v :=
      foldl_max_const v vs (fun b hb => h b (List.mem_cons_of_mem v hb) v (by simp))
    unfold normCol
    dsimp only
    rw [hmin, hmax, if_pos (by ring)]

/-! ## The category the endpoint attaches, in terms of the raw texts -/

theorem cleaning_cat_eq (row : Row) :
    (if (pyIn "pending" (normText (normalizeStatuses row).cleaning)
        || pyIn "partial" (normText (normalizeStatuses row).cleaning)) = true
     then "Cleaning/Detailing" else "Revenue Service")
    = (if (pyIn "complete" (normText row.cleaning)
        || pyIn "clean" (normText row.cleaning)) = false
       then "Cleaning/Detailing" else "Revenue Service") := by
  by_cases hC : (pyIn "complete" (normText row.cleaning)
      || pyIn "clean" (normText row.cleaning)) = true
  · have hlab : (normalizeStatuses row).cleaning = "Complete" := by
      unfold normalizeStatuses
      dsimp only
      rw [if_pos hC]
    rw [hlab, if_neg (by with_unfolding_all decide), if_neg (by simp [hC])]
  · rw [Bool.not_eq_true] at hC
    by_cases hD : (pyIn "partial" (normText row.cleaning)
        || pyIn "inprogress" (normText row.cleaning)) = true
    · have hlab : (normalizeStatuses row).cleaning = "Partial" := by
        unfold normalizeStatuses
        dsimp only
        rw [if_neg (by simp [hC]), if_pos hD]
      rw [hlab, if_pos (by with_unfolding_all decide), if_pos hC]
    · rw [Bool.not_eq_true] at hD
      have hlab : (normalizeStatuses row).cleaning = "Pending" := by
        unfold normalizeStatuses
        dsimp only
        rw [if_neg (by simp [hC]), if_neg (by simp [hD])]
      rw [hlab, if_pos (by with_unfolding_all decide), if_pos hC]

/-- What `induction_category` amounts to over the raw input texts: the
job-card state plays no role; "Inspection Bay Hold" fires exactly when the
fitness text contains expired/invalid/revoked but not "valid", and
otherwise the cleaning text decides between "Cleaning/Detailing" and
"Revenue Service". -/
theorem inductionCategory_rule (row : Row) (avg : ℚ) (m : MappedRow)
    (h : mapRowToObjectives row avg = .ok m) :
    inductionCategory m =
      (if ((pyIn "expired" (normText row.fitness)
            || pyIn "invalid" (normText row.fitness)
            || pyIn "revoked" (normText row.fitness))
           && !pyIn "valid" (normText row.fitness)) = true
       then "Inspection Bay Hold"
       else if (pyIn "complete" (normText row.cleaning)
            || pyIn "clean" (normText row.cleaning)) = false
       then "Cleaning/Detailing"
       else "Revenue Service") := by
  obtain ⟨h1, h2, h3⟩ := mapRow_flags row avg m h
  unfold inductionCategory
  rw [h1, h2, h3]
  by_cases hA : pyIn "valid" (normText row.fitness) = true
  · have hlab : (normalizeStatuses row).fitness = "Valid" := by
      unfold normalizeStatuses
      dsimp only
      rw [if_pos hA]
    rw [hlab, if_neg (by with_unfolding_all decide)]
    conv_rhs => rw [if_neg (by simp [hA])]
    exact cleaning_cat_eq row
  · rw [Bool.not_eq_true] at hA
    by_cases hB : (pyIn "expired" (normText row.fitness)
        || pyIn "invalid" (normText row.fitness)
        || pyIn "revoked" (normText row.fitness)) = true
    · have hlab : (normalizeStatuses row).fitness = "Expired" := by
        unfold normalizeStatuses
        dsimp only
        rw [if_neg (by simp [hA]), if_pos hB]
      rw [hlab, if_pos (by with_unfolding_all decide), if_pos (by simp [hA, hB])]
    · rw [Bool.not_eq_true] at hB
      have hlab : (normalizeStatuses row).fitness = "Conditional" := by
        unfold normalizeStatuses
        dsimp only
        rw [if_neg (by simp [hA]), if_neg (by simp [hB])]
      rw [hlab, if_neg (by with_unfolding_all decide)]
      conv_rhs => rw [if_neg (by simp [hB])]
      exact cleaning_cat_eq row

/-! # The claims -/

/-- C1: the spec says a fitness text containing "expired"/"invalid"/"revoked"
yields invalidity 1.0 and penalty 10.0. The code checks `"valid" in text`
FIRST, and in Python `"valid" in "invalid"` is true, so the raw text
"invalid" is normalised to "Valid" and gets invalidity 0 and penalty 0 —
the spec rule fails on the very keyword it names, while "expired" and
"revoked" behave as specified. -/
theorem claim_C1 :
    (normalizeStatuses { fitness := "invalid" }).fitness = "Valid"
    ∧ (mapRowToObjectives { fitness := "invalid" } 0).map
        (fun m => (m.objectives.headD 9, m.penalty)) = .ok (0, 0)
    ∧ (mapRowToObjectives { fitness := "expired" } 0).map
        (fun m => (m.objectives.headD 9, m.penalty)) = .ok (1, 10)
    ∧ (mapRowToObjectives { fitness := "revoked" } 0).map
        (fun m => (m.objectives.headD 9, m.penalty)) = .ok (1, 10) := by
  refine ⟨by decide, ?_, ?_, ?_⟩ <;> with_unfolding_all decide

/-- C2 (amended): for every row whose mileage field is absent or numeric,
the category the endpoint computes ignores the job-card state entirely: it
is "Inspection Bay Hold" exactly when the fitness text contains
expired/invalid/revoked but not "valid"; otherwise "Cleaning/Detailing"
when the cleaning text contains neither "complete" nor "clean"; otherwise
"Revenue Service". The assignment depends only on the raw texts — not on
the numeric rank and not on the fleet average — but the spec conjunct
requiring open/critical/major job cards for the hold category is absent
from the code. -/
theorem claim_C2 (row : Row) (avg : ℚ)
    (h : row.mileage = none ∨ ∃ q, row.mileage = some (JVal.jnum q)) :
    endpointCategory row avg =
      .ok (if ((pyIn "expired" (normText row.fitness)
            || pyIn "invalid" (normText row.fitness)
            || pyIn "revoked" (normText row.fitness))
           && !pyIn "valid" (normText row.fitness)) = true
       then "Inspection Bay Hold"
       else if (pyIn "complete" (normText row.cleaning)
            || pyIn "clean" (normText row.cleaning)) = false
       then "Cleaning/Detailing"
       else "Revenue Service") := by
  obtain ⟨m, hm, _⟩ := mapRow_ok row avg (mileageVal_ok h)
  unfold endpointCategory
  rw [hm]
  show Except.ok (inductionCategory m) = _
  rw [inductionCategory_rule row avg m hm]

/-- C2 counterexample: a candidate with expired fitness but all job cards
closed and cleaning complete. The spec priority rules (modelled by
`specDisposition`) give "Revenue Service" because the hold rule also
requires open job cards; the endpoint gives "Inspection Bay Hold". -/
theorem claim_C2_counterexample :
    endpointCategory
        { fitness := "expired", job_cards := "closed",
          cleaning := "complete", stabling := "bay1" } 0 = .ok "Inspection Bay Hold"
    ∧ specDisposition
        { fitness := "expired", job_cards := "closed",
          cleaning := "complete", stabling := "bay1" } = "Revenue Service" := by
  exact ⟨by with_unfolding_all decide, by decide⟩

/-- C2 witness: the amended rule instantiated on the counterexample row. -/
theorem claim_C2_witness :
    endpointCategory
        { fitness := "expired", job_cards := "closed",
          cleaning := "complete", stabling := "bay1" } 0 = .ok "Inspection Bay Hold" := by
  have h := claim_C2
    { fitness := "expired", job_cards := "closed",
      cleaning := "complete", stabling := "bay1" } 0 (Or.inl rfl)
  rw [h]
  with_unfolding_all decide

/-- C3: in any population (6-dimensional objective vectors, one penalty per
candidate) holding a feasible candidate i (penalty ≤ 0) and an infeasible
candidate j (penalty > 0), i receives a strictly smaller front rank than j,
whatever the objective values: the sort runs independently on the two
subsets and every feasible front precedes every infeasible front. -/
theorem claim_C3 (objs : List Vec) (pens : List ℚ)
    (hlen : pens.length = objs.length) (hdim : ∀ v ∈ objs, v.length = 6)
    (i j : ℕ) (hi : i < pens.length) (hj : j < pens.length)
    (hfi : pens.getD i 0 ≤ 0) (hfj : 0 < pens.getD j 0) :
    rankOf objs pens i < rankOf objs pens j := by
  obtain ⟨e, he, hei⟩ := nsgaOrder_entry_exists objs pens 6 hlen hdim i hi
  obtain ⟨f, hf, hfidx⟩ := nsgaOrder_entry_exists objs pens 6 hlen hdim j hj
  rw [← hei, ← hfidx, rankOf_eq objs pens 6 hlen hdim e he,
    rankOf_eq objs pens 6 hlen hdim f hf]
  have h1 := (buildOrder_rank_segment objs pens e
    ((nsgaOrder_perm objs pens).mem_iff.mp he)).1 (by rw [hei]; exact hfi)
  have h2 := (buildOrder_rank_segment objs pens f
    ((nsgaOrder_perm objs pens).mem_iff.mp hf)).2 (by rw [hfidx]; exact hfj)
  omega

/-- C3 witness: a feasible all-zeros candidate outranks an infeasible
all-ones candidate. -/
theorem claim_C3_witness :
    rankOf [[(0:ℚ),0,0,0,0,0],[1,1,1,1,1,1]] [(0:ℚ),10] 0
      < rankOf [[(0:ℚ),0,0,0,0,0],[1,1,1,1,1,1]] [(0:ℚ),10] 1 :=
  claim_C3 _ _ rfl (by with_unfolding_all decide) 0 1 (by decide) (by decide)
    (by with_unfolding_all decide) (by with_unfolding_all decide)

/-- C4 (amended): each produced front is an antichain under dominance, and
WITHIN one feasibility class every member of front t+1 of the subset sort
is dominated by some member of the earlier fronts of that same sort. The
cross-class half of the original claim is refuted by
the counterexample: after concatenation a later (infeasible) front need
not be dominated by anything in the earlier (feasible) fronts. -/
theorem claim_C4 (objs : List Vec) (pens : List ℚ) :
    (∀ F ∈ nsgaFronts objs pens, ∀ i ∈ F, ∀ j ∈ F,
      dominates (vecAt objs i) (vecAt objs j) = false)
    ∧ (∀ (pop : List Vec) (t q : ℕ),
        q ∈ (nonDominatedSort pop).getD (t + 1) [] →
        ∃ p ∈ ((nonDominatedSort pop).take (t + 1)).flatten,
          dominates (vecAt pop p) (vecAt pop q) = true) := by
  constructor
  · intro F hF
    unfold nsgaFronts at hF
    rcases List.mem_append.mp hF with hF | hF
    · exact mapped_fronts_antichain F hF
    · exact mapped_fronts_antichain F hF
  · exact fun pop t q hq => nds_dom_earlier pop t q hq

/-- C4 counterexample: with one feasible dominated candidate and one
infeasible dominating candidate the produced fronts are [[0],[1]], yet the
sole front-1 member (index 0, the all-ones vector) does not dominate the
front-2 member (index 1, the all-zeros vector) — front 2 is not dominated
by front 1 across the feasibility split. -/
theorem claim_C4_counterexample :
    nsgaFronts [[(1:ℚ),1,1,1,1,1],[0,0,0,0,0,0]] [(0:ℚ),10] = [[0],[1]]
    ∧ dominates (vecAt [[(1:ℚ),1,1,1,1,1],[0,0,0,0,0,0]] 0)
        (vecAt [[(1:ℚ),1,1,1,1,1],[0,0,0,0,0,0]] 1) = false := by
  exact ⟨by with_unfolding_all decide, by decide⟩

/-- C4 witness: the antichain half instantiated on the two-candidate split
population. -/
theorem claim_C4_witness :
    dominates (vecAt [[(1:ℚ),1,1,1,1,1],[0,0,0,0,0,0]] 1)
      (vecAt [[(1:ℚ),1,1,1,1,1],[0,0,0,0,0,0]] 1) = false :=
  (claim_C4 [[(1:ℚ),1,1,1,1,1],[0,0,0,0,0,0]] [(0:ℚ),10]).1 [1]
    (by with_unfolding_all decide) 1 (by decide) 1 (by decide)

/-- C5 (amended): the final output is pairwise sorted by ascending rank and,
within a rank, descending crowding distance (⊤ first), and it is a
permutation of the built order; ties that are exact on (rank, crowding) are
kept in the order of the BUILT list — i.e. in front-discovery order of the
non-dominated sort — which the counterexample shows can differ from the
original input order. -/
theorem claim_C5 (objs : List Vec) (pens : List ℚ) :
    (nsgaOrder objs pens).Pairwise (fun a b => entryLE a b = true)
    ∧ (nsgaOrder objs pens).Perm (buildOrder objs 1 (nsgaFronts objs pens))
    ∧ ∀ e : OrderEntry,
        (nsgaOrder objs pens).filter (fun y => entryLE e y && entryLE y e)
          = (buildOrder objs 1 (nsgaFronts objs pens)).filter
              (fun y => entryLE e y && entryLE y e) := by
  refine ⟨?_, nsgaOrder_perm objs pens, ?_⟩
  · unfold nsgaOrder
    exact ssort_pairwise entryLE entryLE_total entryLE_trans _
  · intro e
    unfold nsgaOrder
    exact ssort_filter_keyEq entryLE entryLE_total entryLE_trans e _

/-- C5 counterexample: candidates 2 and 3 end in front 2 with equal (⊤)
crowding, but the output lists 3 before 2 — the discovery order of the
peeling loop, not the original input order 2, 3. -/
theorem claim_C5_counterexample :
    nsgaOrder [[(0:ℚ),3,0,0,0,0],[3,0,0,0,0,0],[4,1,0,0,0,0],[1,4,0,0,0,0]]
        [(0:ℚ),0,0,0]
      = [⟨0,⊤,1⟩,⟨1,⊤,1⟩,⟨3,⊤,2⟩,⟨2,⊤,2⟩] := by
  with_unfolding_all decide

/-- C5 witness: the tie-class filter equation instantiated on a concrete
population and entry. -/
theorem claim_C5_witness :
    (nsgaOrder [[(0:ℚ),0,0,0,0,0]] [(0:ℚ)]).filter
        (fun y => entryLE ⟨0, ⊤, 1⟩ y && entryLE y ⟨0, ⊤, 1⟩)
      = (buildOrder [[(0:ℚ),0,0,0,0,0]] 1
          (nsgaFronts [[(0:ℚ),0,0,0,0,0]] [(0:ℚ)])).filter
        (fun y => entryLE ⟨0, ⊤, 1⟩ y && entryLE y ⟨0, ⊤, 1⟩) :=
  (claim_C5 [[(0:ℚ),0,0,0,0,0]] [(0:ℚ)]).2.2 ⟨0, ⊤, 1⟩

/-- C6 (amended): in every nonempty front and every in-range dimension,
SOME member attaining the minimum of that dimension and SOME member
attaining the maximum receive crowding distance ⊤ (namely the first and
last elements of the per-dimension stable sort); with ties, other members
attaining the same extreme value can keep a finite distance, refuting the
universal reading — see the counterexample. A single-candidate population
does get rank 1 and crowding ⊤. -/
theorem claim_C6 :
    (∀ (pop : List Vec) (front : List ℕ) (k : ℕ),
      front ≠ [] → k < (vecAt pop 0).length →
      (∃ i ∈ front, (∀ j ∈ front, objVal pop i k ≤ objVal pop j k)
        ∧ crowdingDistance front pop i = ⊤)
      ∧ (∃ i ∈ front, (∀ j ∈ front, objVal pop j k ≤ objVal pop i k)
        ∧ crowdingDistance front pop i = ⊤))
    ∧ (∀ (v : Vec) (pen : ℚ), v ≠ [] → nsgaOrder [v] [pen] = [⟨0, ⊤, 1⟩]) := by
  constructor
  · intro pop front k hne hk
    constructor
    · exact ⟨(ssort (keyLe pop k) front).headD 0, (ssort_head_min pop k front hne).1,
        (ssort_head_min pop k front hne).2,
        (crowdingDistance_boundary_top pop front k hk hne).1⟩
    · exact ⟨(ssort (keyLe pop k) front).getLastD 0, (ssort_last_max pop k front hne).1,
        (ssort_last_max pop k front hne).2,
        (crowdingDistance_boundary_top pop front k hk hne).2⟩
  · exact fun v pen hv => nsgaOrder_singleton v pen hv

/-- C6 counterexample: candidates 0 and 1 tie for the dimension-0 minimum
(value 0) in the single front [0,1,2], yet candidate 1 gets the finite
crowding distance 6, not ⊤ — a minimum holder without infinite distance. -/
theorem claim_C6_counterexample :
    nonDominatedSort [[(0:ℚ),1,9,1,1,1],[0,2,5,2,2,2],[5,3,1,3,3,3]] = [[0,1,2]]
    ∧ objVal [[(0:ℚ),1,9,1,1,1],[0,2,5,2,2,2],[5,3,1,3,3,3]] 0 0 = 0
    ∧ objVal [[(0:ℚ),1,9,1,1,1],[0,2,5,2,2,2],[5,3,1,3,3,3]] 1 0 = 0
    ∧ objVal [[(0:ℚ),1,9,1,1,1],[0,2,5,2,2,2],[5,3,1,3,3,3]] 2 0 = 5
    ∧ crowdingDistance [0,1,2] [[(0:ℚ),1,9,1,1,1],[0,2,5,2,2,2],[5,3,1,3,3,3]] 1
        = ((6:ℚ) : WithTop ℚ) := by
  refine ⟨?_, by decide, by decide, by decide, ?_⟩ <;> with_unfolding_all decide

/-- C6 witness: the singleton half on a concrete one-candidate population. -/
theorem claim_C6_witness :
    nsgaOrder [[(5:ℚ),0,0,0,0,0]] [(0:ℚ)] = [⟨0, ⊤, 1⟩] :=
  claim_C6.2 [(5:ℚ),0,0,0,0,0] 0 (by decide)

/-- C7 (amended): on a degenerate objective column every NORMALISED value
is 0 with no division by zero, as claimed; but the crowding-distance pass
over a front whose members all share one value in dimension k does not
contribute zero — it overwrites the first and the last member of the
per-dimension sort with ⊤ (the span-zero branch), leaving only the others
untouched; the counterexample shows a candidate flipped from a finite
distance to ⊤ by adding a degenerate column. -/
theorem claim_C7 :
    (∀ vals : List ℚ, (∀ a ∈ vals, ∀ b ∈ vals, a = b)
      → normCol vals = vals.map (fun _ => 0))
    ∧ (∀ (pop : List Vec) (k f0 : ℕ) (rest : List ℕ) (d : ℕ → WithTop ℚ),
        (∀ i ∈ f0 :: rest, ∀ j ∈ f0 :: rest, objVal pop i k = objVal pop j k) →
        ∀ i, crowdStepDim pop (f0 :: rest) d k i
          = if i = (f0 :: rest).getLastD 0 then ⊤ else if i = f0 then ⊤ else d i) :=
  ⟨fun vals h => normCol_const vals h,
   fun pop k f0 rest d h => crowdStepDim_const pop k f0 rest d h⟩

/-- C7 counterexample: dimension 2 is degenerate (all 0). With that column
present candidate 0 gets crowding ⊤; with the column removed it gets the
finite value 5 — the degenerate dimension contributed infinity to a
middle candidate, not zero. -/
theorem claim_C7_counterexample :
    objVal [[(1:ℚ),1,0,1,1,1],[0,2,0,0,0,2],[2,0,0,2,2,0]] 0 2 = 0
    ∧ objVal [[(1:ℚ),1,0,1,1,1],[0,2,0,0,0,2],[2,0,0,2,2,0]] 1 2 = 0
    ∧ objVal [[(1:ℚ),1,0,1,1,1],[0,2,0,0,0,2],[2,0,0,2,2,0]] 2 2 = 0
    ∧ crowdingDistance [0,1,2] [[(1:ℚ),1,0,1,1,1],[0,2,0,0,0,2],[2,0,0,2,2,0]] 0 = ⊤
    ∧ crowdingDistance [0,1,2] [[(1:ℚ),1,1,1,1],[0,2,0,0,2],[2,0,2,2,0]] 0
        = ((5:ℚ) : WithTop ℚ) := by
  refine ⟨by decide, by decide, by decide, ?_, ?_⟩ <;> with_unfolding_all decide

/-- C7 witness: the normalisation half on a concrete constant column. -/
theorem claim_C7_witness :
    normCol [(3:ℚ),3,3] = [(3:ℚ),3,3].map (fun _ => 0) :=
  claim_C7.1 [(3:ℚ),3,3] (by decide)

/-- C8 (amended): an ABSENT mileage field is substituted by 0 and a batch
of rows whose mileage fields are all absent or numeric completes with one
result per row; but an UNPARSABLE mileage string raises and aborts the
whole batch (see the counterexample), refuting the unparsable half of the
claim. -/
theorem claim_C8 (rows : List Row) (w : Weights)
    (h : ∀ r ∈ rows, r.mileage = none ∨ ∃ q, r.mileage = some (JVal.jnum q)) :
    (∃ out, rankEndpoint rows w = .ok out ∧ out.length = rows.length)
    ∧ (∀ r ∈ rows, r.mileage = none → mileageVal r = .ok 0) := by
  refine ⟨rankEndpoint_ok rows w h, fun r _ hm => ?_⟩
  unfold mileageVal
  rw [hm]

/-- C8 counterexample: one row whose mileage is the string "abc" makes the
entire batch fail with the float-conversion error, instead of being
substituted by 0. -/
theorem claim_C8_counterexample :
    rankEndpoint [{ train_id := some "T1", mileage := some (JVal.jstr "abc") }] {}
      = .error "could not convert string to float: abc" := by
  with_unfolding_all decide

/-- C8 witness: a one-row batch with absent mileage completes with one
result. -/
theorem claim_C8_witness :
    ∃ out, rankEndpoint [{ train_id := some "T1" }] {} = .ok out ∧ out.length = 1 :=
  (claim_C8 [{ train_id := some "T1" }] {}
    (by intro r hr; rw [List.mem_singleton] at hr; subst hr; exact Or.inl rfl)).1

/-- C9 (amended): the CSV ingestion of nsga_train_ranking.py does behave as
claimed — a record without the train_id column fails the whole read with
the ValueError naming the missing column, before any other field is
consulted. The HTTP endpoint, however, refutes the claim as stated for the
service: it ranks a record with no train_id and returns it with identifier
None (see the counterexample). -/
theorem claim_C9 (rd : CsvRow) (h : rd.lookup "train_id" = none) :
    readCsv [rd] = .error "Missing required CSV column: train_id" :=
  readCsv_missing_id rd h

/-- C9 counterexample: the endpoint accepts a record with no train_id and
returns a ranked result whose identifier is None — no validation error,
no abort. -/
theorem claim_C9_counterexample :
    (rankEndpoint
        [{ fitness := "valid", job_cards := "closed",
           cleaning := "complete", stabling := "bay1" }] {}).map
      (fun l => l.map RankResult.train_id) = .ok [none] := by
  with_unfolding_all decide

/-- C9 witness: a CSV record carrying only fitness_valid is rejected with
the error naming train_id. -/
theorem claim_C9_witness :
    readCsv [[("fitness_valid","1")]] = .error "Missing required CSV column: train_id" :=
  claim_C9 [("fitness_valid","1")] (by decide)

/-- C10: for every population of 6-dimensional weighted vectors with one
penalty per candidate, the concatenated fronts (feasible split first) are
a partition of the candidate indices — their flattening is a permutation
of range(n) — and the final ranked output carries each candidate index
exactly once. -/
theorem claim_C10 (objs : List Vec) (pens : List ℚ)
    (hlen : pens.length = objs.length) (hdim : ∀ v ∈ objs, v.length = 6) :
    ((nsgaFronts objs pens).flatten).Perm (List.range objs.length)
    ∧ ((nsgaOrder objs pens).map OrderEntry.idx).Perm (List.range objs.length) :=
  ⟨nsgaFronts_flatten_perm objs pens 6 hlen hdim,
   nsgaOrder_map_idx_perm objs pens 6 hlen hdim⟩

/-- C10 witness: the partition statement on a concrete two-candidate
population with one feasible and one infeasible member. -/
theorem claim_C10_witness :
    ((nsgaFronts [[(0:ℚ),0,0,0,0,0],[1,1,1,1,1,1]] [(0:ℚ),10]).flatten).Perm
        (List.range 2)
    ∧ ((nsgaOrder [[(0:ℚ),0,0,0,0,0],[1,1,1,1,1,1]] [(0:ℚ),10]).map
        OrderEntry.idx).Perm (List.range 2) :=
  claim_C10 [[(0:ℚ),0,0,0,0,0],[1,1,1,1,1,1]] [(0:ℚ),10] rfl
    (by with_unfolding_all decide)

end KMRL
